import Mathlib

/-!
Verification development for the video-analysis pipeline:
a shallow embedding of `AiService/response_parser.py` (the multi-stage
JSON recovery parser), the SQLite schema cascade rules declared in
`database/database_manager.py`, and the persistence control flow of
`services/history_service.py` (`save_ai_analysis_result`).

Texts are modelled as `List Char`.  Python machine floats are modelled
as rationals together with explicit `inf`, `-inf` and `nan` values.
Decimal float literals decoded from text are kept exact rather than
rounded to binary (no claim in this development depends on a text
literal's rounded value); the conversion `float(int)`, whose rounding
claims do exercise, rounds its argument to the nearest 53-bit value
(ties to even) and overflows — raising `OverflowError` — when the
rounded magnitude reaches `2 ^ 1024`, as in CPython.
-/

namespace VideoAI

/-- Backtick character (used by markdown fences). -/
def btick : Char := Char.ofNat 96

/-- Whitespace for Python's `re` `\s` class, ASCII range
(space, tab, newline, carriage return, vertical tab, form feed). -/
def isRWs (c : Char) : Bool :=
  c = ' ' || c = '\t' || c = '\n' || c = '\r' || c = Char.ofNat 11 || c = Char.ofNat 12

/-- Whitespace for Python's `str.strip()`, ASCII range: the `\s` set plus
the file/group/record/unit separators `\x1c`–`\x1f`. -/
def isPWs (c : Char) : Bool :=
  isRWs c || c = Char.ofNat 28 || c = Char.ofNat 29 || c = Char.ofNat 30 || c = Char.ofNat 31

/-- JSON whitespace as skipped by Python's `json.loads`
(space, tab, newline, carriage return only). -/
def isJWs (c : Char) : Bool :=
  c = ' ' || c = '\t' || c = '\n' || c = '\r'

/-- `str.strip()`: drop leading and trailing Python whitespace. -/
def pystrip (l : List Char) : List Char :=
  ((l.dropWhile isPWs).reverse.dropWhile isPWs).reverse

/-- Split a text into its maximal leading run of `\s` characters and the rest
(the deterministic behaviour of a greedy `\s*`). -/
def spanWs (l : List Char) : List Char × List Char :=
  (l.takeWhile isRWs, l.dropWhile isRWs)

/-- Structural delimiters recognised by the Stage B repair pattern. -/
def isDelim (c : Char) : Bool :=
  c = ',' || c = '}' || c = ']'

/-- Match the suffix group `\s*[,}\]]` of the Stage B pattern at the head of
`l`: returns the matched group (whitespace run plus the delimiter) and the
remaining text. -/
def sufMatch (l : List Char) : Option (List Char × List Char) :=
  match (spanWs l).2 with
  | d :: rest => if isDelim d then some ((spanWs l).1 ++ [d], rest) else none
  | [] => none

/-- Non-greedy scan for the group `(.*?)"` followed by `\s*[,}\]]` (with
`re.DOTALL`, so the content may contain newlines): returns the shortest
content prefix whose terminating quote is followed by the suffix group,
together with that suffix group and the remaining text. -/
def contentMatch : List Char → Option (List Char × List Char × List Char)
  | [] => none
  | c :: cs =>
    if c = '"' then
      match sufMatch cs with
      | some (g3, rest) => some ([], g3, rest)
      | none =>
        match contentMatch cs with
        | some (con, g3, rest) => some (c :: con, g3, rest)
        | none => none
    else
      match contentMatch cs with
      | some (con, g3, rest) => some (c :: con, g3, rest)
      | none => none

/-- Attempt to match the full Stage B pattern `(\s*:\s*)"(.*?)"(\s*[,}\]])`
at the start of `l`.  On success returns
`(group1, content, group3, rest-of-text)`. -/
def matchAt (l : List Char) : Option (List Char × List Char × List Char × List Char) :=
  match (spanWs l).2 with
  | ':' :: r2 =>
    (match (spanWs r2).2 with
     | '"' :: r4 =>
       (match contentMatch r4 with
        | some (con, g3, rest) => some ((spanWs l).1 ++ ':' :: (spanWs r2).1, con, g3, rest)
        | none => none)
     | _ => none)
  | _ => none

theorem spanWs_snd_le (l : List Char) : (spanWs l).2.length ≤ l.length :=
  (List.dropWhile_suffix isRWs).sublist.length_le

theorem sufMatch_length {l g3 rest} (h : sufMatch l = some (g3, rest)) :
    rest.length < l.length := by
  have hle := spanWs_snd_le l
  unfold sufMatch at h
  split at h
  next d r heq =>
    split at h
    · injection h with h
      have h3 : r = rest := congrArg Prod.snd h
      subst h3
      rw [heq] at hle
      simp at hle
      omega
    · exact absurd h (by simp)
  next heq => exact absurd h (by simp)

theorem contentMatch_length {l con g3 rest}
    (h : contentMatch l = some (con, g3, rest)) : rest.length < l.length := by
  induction l generalizing con g3 rest with
  | nil => simp [contentMatch] at h
  | cons c cs ih =>
    rw [contentMatch] at h
    split at h
    · split at h
      next g3' rest' heq =>
        injection h with h
        have h3 : rest' = rest := congrArg (fun p => p.2.2) h
        subst h3
        have := sufMatch_length heq
        simp; omega
      next heq =>
        split at h
        next con' g3'' rest'' heq2 =>
          injection h with h
          have h3 : rest'' = rest := congrArg (fun p => p.2.2) h
          subst h3
          have := ih heq2
          simp; omega
        next => exact absurd h (by simp)
    · split at h
      next con' g3'' rest'' heq2 =>
        injection h with h
        have h3 : rest'' = rest := congrArg (fun p => p.2.2) h
        subst h3
        have := ih heq2
        simp; omega
      next => exact absurd h (by simp)

theorem matchAt_length {l g1 con g3 rest}
    (h : matchAt l = some (g1, con, g3, rest)) : rest.length < l.length := by
  unfold matchAt at h
  split at h
  next r2 heq =>
    split at h
    next r4 heq2 =>
      split at h
      next con' g3' rest' heq3 =>
        injection h with h
        have h4 : rest' = rest := congrArg (fun p => p.2.2.2) h
        subst h4
        have h5 := contentMatch_length heq3
        have h6 : r4.length < r2.length := by
          have := spanWs_snd_le r2
          rw [heq2] at this; simp at this; omega
        have h7 : r2.length < l.length := by
          have := spanWs_snd_le l
          rw [heq] at this; simp at this; omega
        omega
      next => exact absurd h (by simp)
    next heq2 => exact absurd h (by simp)
  next heq => exact absurd h (by simp)

/-- Replacement applied inside a matched content group:
`content.replace('\n', '\\n').replace('\r', '')`. -/
def fixContent : List Char → List Char
  | [] => []
  | c :: cs =>
    if c = '\n' then '\\' :: 'n' :: fixContent cs
    else if c = '\r' then fixContent cs
    else c :: fixContent cs

/-- Fuelled body of the Stage B substitution; the fuel strictly exceeds
the number of scan steps whenever it is at least the text length. -/
def subFixF : ℕ → List Char → List Char
  | _, [] => []
  | 0, l => l
  | f + 1, c :: cs =>
    match matchAt (c :: cs) with
    | some (g1, con, g3, rest) =>
      g1 ++ '"' :: (fixContent con ++ '"' :: (g3 ++ subFixF f rest))
    | none => c :: subFixF f cs

/-- `re.sub` of the Stage B pattern with the `fix_newlines` replacement
function: leftmost non-overlapping matches, scanning left to right. -/
def subFix (l : List Char) : List Char :=
  subFixF l.length l

theorem subFixF_congr : ∀ (f : ℕ), ∀ l : List Char, l.length ≤ f →
    subFixF f l = subFix l := by
  intro f
  induction f using Nat.strong_induction_on with
  | _ f ih =>
    intro l hl
    cases l with
    | nil => cases f <;> rfl
    | cons c cs =>
      cases f with
      | zero => simp at hl
      | succ f2 =>
        show subFixF (f2 + 1) (c :: cs) = subFixF (cs.length + 1) (c :: cs)
        rw [subFixF, subFixF]
        cases hm : matchAt (c :: cs) with
        | some quad =>
          obtain ⟨g1, con, g3, rest⟩ := quad
          have hlen := matchAt_length hm
          simp only [List.length_cons] at hlen
          have hl2 : cs.length + 1 ≤ f2 + 1 := by simpa using hl
          exact congrArg (fun x => g1 ++ '"' :: (fixContent con ++ '"' :: (g3 ++ x)))
            ((ih f2 (by omega) rest (by omega)).trans
              (ih cs.length (by omega) rest (by omega)).symm)
        | none =>
          have hl2 : cs.length + 1 ≤ f2 + 1 := by simpa using hl
          exact congrArg (fun x => c :: x)
            ((ih f2 (by omega) cs (by omega)).trans
              (ih cs.length (by omega) cs (by omega)).symm)

/-! ### Python values and exceptions -/

/-- Exceptions that the modelled code can raise. -/
inductive PyExc where
  | jsonDecodeError
  | valueError
  | typeError
  | overflowError
  | attributeError
  | dbError
deriving DecidableEq, Repr

/-- A CPython float: exact finite value (as a rational), infinities, or NaN. -/
inductive PyFloat where
  | finite : ℚ → PyFloat
  | inf
  | ninf
  | nan
deriving DecidableEq, Repr

/-- A Python value as produced by `json.loads`: None, bool, int, float,
str, list, dict (association list in insertion order, keys unique). -/
inductive JVal where
  | null
  | bool : Bool → JVal
  | int : ℤ → JVal
  | float : PyFloat → JVal
  | str : List Char → JVal
  | arr : List JVal → JVal
  | obj : List (List Char × JVal) → JVal

/-- Powers of ten, in a form the kernel evaluates cheaply. -/
def powTenN : ℕ → ℚ
  | 0 => 1
  | n + 1 => 10 * powTenN n

theorem powTenN_eq (n : ℕ) : powTenN n = (10 : ℚ) ^ n := by
  induction n with
  | zero => rfl
  | succ n ih => rw [powTenN, ih, pow_succ]; ring

/-- `10 ^ e` for a signed exponent. -/
def powTenZ (e : ℤ) : ℚ :=
  if 0 ≤ e then powTenN e.toNat else (powTenN (-e).toNat)⁻¹

theorem powTenZ_eq (e : ℤ) : powTenZ e = (10 : ℚ) ^ e := by
  rcases e with n | n
  · simp [powTenZ, powTenN_eq, zpow_natCast]
  · rw [powTenZ, if_neg (not_le.mpr (Int.negSucc_lt_zero n))]
    rw [show (-(Int.negSucc n)).toNat = n + 1 by rfl, powTenN_eq]
    rw [show Int.negSucc n = -((n + 1 : ℕ) : ℤ) by rfl]
    rw [zpow_neg, zpow_natCast]

/-- First float magnitude at which `float(int)` overflows (`2 ^ 1024`,
written as an explicit numeral so comparisons against it evaluate); the
rounding band just below it is not modelled and never exercised. -/
def fBound : ℚ := 179769313486231590772930519078902473361797697894230657273430081157732675805500963132708477322407536021120113879871393357658789768814416622492847430639474124377767893424865485276302219601246094119453082952085005768838150682342462881473913110540827237163350510684586298239947245938479716304835356329624224137216

theorem fBound_eq : fBound = 2 ^ 1024 := by norm_num [fBound]

/-- Build a float from an exact decimal value, overflowing to `±inf` as a
double does. -/
def pyFloatOfQ (q : ℚ) : PyFloat :=
  if fBound ≤ q then .inf else if q ≤ -fBound then .ninf else .finite q

/-- Python dict assignment `d[k] = v`: replace in place if the key exists,
otherwise append (insertion order preserved). -/
def objInsert (kvs : List (List Char × JVal)) (k : List Char) (v : JVal) :
    List (List Char × JVal) :=
  match kvs with
  | [] => [(k, v)]
  | (k', v') :: t => if k' = k then (k', v) :: t else (k', v') :: objInsert t k v

/-- Dict lookup on an association list (first match). -/
def objLookup (kvs : List (List Char × JVal)) (k : List Char) : Option JVal :=
  match kvs with
  | [] => none
  | (k', v') :: t => if k' = k then some v' else objLookup t k

/-! ### `json.loads` (strict decoding, with CPython's NaN/Infinity extension) -/

def skipJWs (l : List Char) : List Char := l.dropWhile isJWs

def digitsToNat (l : List Char) : Nat :=
  l.foldl (fun a c => a * 10 + (c.toNat - 48)) 0

def takeDigits (l : List Char) : List Char × List Char :=
  (l.takeWhile Char.isDigit, l.dropWhile Char.isDigit)

/-- Strip an exact literal from the head of the text. -/
def dropLit : List Char → List Char → Option (List Char)
  | [], l => some l
  | _ :: _, [] => none
  | p :: ps, c :: cs => if p = c then dropLit ps cs else none

/-- Fraction and exponent tail of a JSON number (the groups
`(\.\d+)?([eE][-+]?\d+)?` of CPython's NUMBER_RE); returns the fraction
digits, the exponent, and the rest of the text. -/
def numTail (l : List Char) : Option (List Char) × Option ℤ × List Char :=
  let (fr, l2) : Option (List Char) × List Char :=
    match l with
    | '.' :: t =>
      (match takeDigits t with
       | ([], _) => (none, l)
       | (ds, t2) => (some ds, t2))
    | _ => (none, l)
  let (ex, l3) : Option ℤ × List Char :=
    match l2 with
    | e :: t =>
      if e = 'e' || e = 'E' then
        (match t with
         | '+' :: t2 =>
           (match takeDigits t2 with
            | ([], _) => (none, l2)
            | (ds, t3) => (some ((digitsToNat ds : ℤ)), t3))
         | '-' :: t2 =>
           (match takeDigits t2 with
            | ([], _) => (none, l2)
            | (ds, t3) => (some (-(digitsToNat ds : ℤ)), t3))
         | _ =>
           (match takeDigits t with
            | ([], _) => (none, l2)
            | (ds, t3) => (some ((digitsToNat ds : ℤ)), t3)))
      else (none, l2)
    | [] => (none, l2)
  (fr, ex, l3)

/-- Exact rational value of a decimal literal. -/
def decValue (neg : Bool) (ip : ℕ) (fr : Option (List Char)) (ex : Option ℤ) : ℚ :=
  let base : ℚ := (ip : ℚ) +
    (match fr with
     | some ds => (digitsToNat ds : ℚ) / powTenN ds.length
     | none => 0)
  let scaled : ℚ := base * powTenZ (ex.getD 0)
  if neg then -scaled else scaled

/-- Parse a JSON number at the head of the text following CPython's
NUMBER_RE (maximal munch; leading zeros end the integer part; a fraction
or exponent group is taken only when complete).  Integer literals give
Python ints, others give floats. -/
def parseNumber (l : List Char) : Except PyExc (JVal × List Char) :=
  let (neg, l1) : Bool × List Char :=
    match l with
    | '-' :: t => (true, t)
    | _ => (false, l)
  match l1 with
  | c :: t =>
    if c = '0' then
      let (fr, ex, l3) := numTail t
      if fr = none && ex = none then
        .ok (.int 0, t)
      else
        .ok (.float (pyFloatOfQ (decValue neg 0 fr ex)), l3)
    else if c.isDigit then
      let (ds, t2) := takeDigits t
      let ip := digitsToNat (c :: ds)
      let (fr, ex, l3) := numTail t2
      if fr = none && ex = none then
        .ok (.int (if neg then -(ip : ℤ) else (ip : ℤ)), t2)
      else
        .ok (.float (pyFloatOfQ (decValue neg ip fr ex)), l3)
    else .error .jsonDecodeError
  | [] => .error .jsonDecodeError

def hexVal (c : Char) : Option ℕ :=
  if '0' ≤ c && c ≤ '9' then some (c.toNat - 48)
  else if 'a' ≤ c && c ≤ 'f' then some (c.toNat - 87)
  else if 'A' ≤ c && c ≤ 'F' then some (c.toNat - 55)
  else none

/-- Single-character escape decoding (`\" \\ \/ \b \f \n \r \t`). -/
def escChar (e : Char) : Option Char :=
  if e = '"' then some '"'
  else if e = '\\' then some '\\'
  else if e = '/' then some '/'
  else if e = 'b' then some (Char.ofNat 8)
  else if e = 'f' then some (Char.ofNat 12)
  else if e = 'n' then some '\n'
  else if e = 'r' then some '\r'
  else if e = 't' then some '\t'
  else none

/-- Four hex digits. -/
def hex4 : List Char → Option (ℕ × List Char)
  | h1 :: h2 :: h3 :: h4 :: t =>
    (match hexVal h1, hexVal h2, hexVal h3, hexVal h4 with
     | some a, some b, some c, some d => some (((a * 16 + b) * 16 + c) * 16 + d, t)
     | _, _, _, _ => none)
  | _ => none

/-- The `\uXXXX` escape, combining surrogate pairs.  Model restriction: a
lone surrogate — which CPython would keep as an unpaired surrogate code
unit, unrepresentable in `Char` — is reported as a decode error; no input
in this development contains one. -/
def uEscape (t2 : List Char) : Option (Char × List Char) :=
  match hex4 t2 with
  | some (n, t3) =>
    if n < 0xd800 || 0xe000 ≤ n then some (Char.ofNat n, t3)
    else if n < 0xdc00 then
      (match t3 with
       | '\\' :: 'u' :: rest =>
         (match hex4 rest with
          | some (m, t4) =>
            if 0xdc00 ≤ m && m < 0xe000 then
              some (Char.ofNat (0x10000 + (n - 0xd800) * 0x400 + (m - 0xdc00)), t4)
            else none
          | none => none)
       | _ => none)
    else none
  | none => none

theorem hex4_length {l : List Char} {n t} (h : hex4 l = some (n, t)) :
    t.length + 4 = l.length := by
  unfold hex4 at h
  split at h
  next h1 h2 h3 h4 t0 =>
    split at h
    · injection h with h
      rw [show t = t0 from (congrArg Prod.snd h).symm]
      simp
    · exact absurd h (by simp)
  next => exact absurd h (by simp)

theorem uEscape_length {t2 : List Char} {c t3} (h : uEscape t2 = some (c, t3)) :
    t3.length < t2.length := by
  unfold uEscape at h
  split at h
  next n t0 heq =>
    have hl := hex4_length heq
    split at h
    · injection h with h
      rw [show t3 = t0 from (congrArg Prod.snd h).symm]
      omega
    · split at h
      · split at h
        next rest =>
          split at h
          next m t4 heq3 =>
            have hl2 := hex4_length heq3
            split at h
            · injection h with h
              rw [show t3 = t4 from (congrArg Prod.snd h).symm]
              simp at hl
              omega
            · exact absurd h (by simp)
          next => exact absurd h (by simp)
        next => exact absurd h (by simp)
      · exact absurd h (by simp)
  next => exact absurd h (by simp)

/-- Fuelled body of the string parser; fuel at least the text length is
always enough, every step consumes at least one character. -/
def parseStrF : ℕ → List Char → Except PyExc (List Char × List Char)
  | _, [] => .error .jsonDecodeError
  | 0, _ :: _ => .error .jsonDecodeError
  | f + 1, c :: t =>
    if c = '"' then .ok ([], t)
    else if c = '\\' then
      match t with
      | [] => .error .jsonDecodeError
      | e :: t2 =>
        if e = 'u' then
          match uEscape t2 with
          | some (ch, t3) => (parseStrF f t3).map (fun r => (ch :: r.1, r.2))
          | none => .error .jsonDecodeError
        else
          match escChar e with
          | some ch => (parseStrF f t2).map (fun r => (ch :: r.1, r.2))
          | none => .error .jsonDecodeError
    else if c.toNat < 0x20 then .error .jsonDecodeError
    else (parseStrF f t).map (fun r => (c :: r.1, r.2))

/-- Parse the body of a JSON string (after the opening quote), in strict
mode: raw control characters below `0x20` are rejected; escape sequences
and `\uXXXX` are decoded. -/
def parseStr (l : List Char) : Except PyExc (List Char × List Char) :=
  parseStrF l.length l

theorem parseStrF_congr : ∀ (f : ℕ), ∀ l : List Char, l.length ≤ f →
    parseStrF f l = parseStr l := by
  intro f
  induction f using Nat.strong_induction_on with
  | _ f ih =>
    intro l hl
    cases l with
    | nil => cases f <;> rfl
    | cons c t =>
      cases f with
      | zero => simp at hl
      | succ f2 =>
        have hl2 : t.length + 1 ≤ f2 + 1 := by simpa using hl
        show parseStrF (f2 + 1) (c :: t) = parseStrF (t.length + 1) (c :: t)
        rw [parseStrF.eq_def, parseStrF.eq_def]
        simp only []
        by_cases h1 : c = '"'
        · rw [if_pos h1, if_pos h1]
        · rw [if_neg h1, if_neg h1]
          by_cases h2 : c = '\\'
          · rw [if_pos h2, if_pos h2]
            cases t with
            | nil => rfl
            | cons e t2 =>
              show (if e = 'u' then
                      match uEscape t2 with
                      | some (ch, t3) =>
                        Except.map (fun (r : List Char × List Char) => (ch :: r.1, r.2)) (parseStrF f2 t3)
                      | none => Except.error PyExc.jsonDecodeError
                    else
                      match escChar e with
                      | some ch =>
                        Except.map (fun (r : List Char × List Char) => (ch :: r.1, r.2)) (parseStrF f2 t2)
                      | none => Except.error PyExc.jsonDecodeError) =
                   (if e = 'u' then
                      match uEscape t2 with
                      | some (ch, t3) =>
                        Except.map (fun (r : List Char × List Char) => (ch :: r.1, r.2)) (parseStrF ((e :: t2).length) t3)
                      | none => Except.error PyExc.jsonDecodeError
                    else
                      match escChar e with
                      | some ch =>
                        Except.map (fun (r : List Char × List Char) => (ch :: r.1, r.2)) (parseStrF ((e :: t2).length) t2)
                      | none => Except.error PyExc.jsonDecodeError)
              by_cases h3 : e = 'u'
              · rw [if_pos h3, if_pos h3]
                cases hu : uEscape t2 with
                | some p =>
                  obtain ⟨ch, t3⟩ := p
                  have hlen := uEscape_length hu
                  simp only [List.length_cons] at hl2
                  exact congrArg (Except.map (fun r => (ch :: r.1, r.2)))
                    ((ih f2 (by omega) t3 (by omega)).trans
                      (ih (t2.length + 1) (by omega) t3 (by omega)).symm)
                | none => rfl
              · rw [if_neg h3, if_neg h3]
                cases he : escChar e with
                | some ch =>
                  simp only [List.length_cons] at hl2
                  exact congrArg (Except.map (fun r => (ch :: r.1, r.2)))
                    ((ih f2 (by omega) t2 (by omega)).trans
                      (ih (t2.length + 1) (by omega) t2 (by omega)).symm)
                | none => rfl
          · rw [if_neg h2, if_neg h2]
            by_cases h4 : c.toNat < 0x20
            · rw [if_pos h4, if_pos h4]
            · rw [if_neg h4, if_neg h4]
              exact congrArg (Except.map (fun r => (c :: r.1, r.2)))
                ((ih f2 (by omega) t (by omega)).trans
                  (ih t.length (by omega) t (by omega)).symm)

mutual

/-- One JSON value at the head of the text (leading whitespace already
skipped by the caller, as in CPython's scanner). -/
def parseVal : ℕ → List Char → Except PyExc (JVal × List Char)
  | 0, _ => .error .jsonDecodeError
  | f + 1, l =>
    match l with
    | [] => .error .jsonDecodeError
    | c :: t =>
      if c = '{' then
        match skipJWs t with
        | '}' :: t2 => .ok (.obj [], t2)
        | r => parseMembers f r []
      else if c = '[' then
        match skipJWs t with
        | ']' :: t2 => .ok (.arr [], t2)
        | r => parseElems f r []
      else if c = '"' then
        (parseStr t).map (fun r => (.str r.1, r.2))
      else if c = 't' then
        match dropLit ['r', 'u', 'e'] t with
        | some r => .ok (.bool true, r)
        | none => .error .jsonDecodeError
      else if c = 'f' then
        match dropLit ['a', 'l', 's', 'e'] t with
        | some r => .ok (.bool false, r)
        | none => .error .jsonDecodeError
      else if c = 'n' then
        match dropLit ['u', 'l', 'l'] t with
        | some r => .ok (.null, r)
        | none => .error .jsonDecodeError
      else if c = 'N' then
        match dropLit ['a', 'N'] t with
        | some r => .ok (.float .nan, r)
        | none => .error .jsonDecodeError
      else if c = 'I' then
        match dropLit ['n', 'f', 'i', 'n', 'i', 't', 'y'] t with
        | some r => .ok (.float .inf, r)
        | none => .error .jsonDecodeError
      else if c = '-' && t.take 1 = ['I'] then
        match dropLit ['I', 'n', 'f', 'i', 'n', 'i', 't', 'y'] t with
        | some r => .ok (.float .ninf, r)
        | none => .error .jsonDecodeError
      else if c.isDigit || c = '-' then
        parseNumber (c :: t)
      else .error .jsonDecodeError

/-- Members of an object, positioned at the opening quote of a key. -/
def parseMembers : ℕ → List Char → List (List Char × JVal) →
    Except PyExc (JVal × List Char)
  | 0, _, _ => .error .jsonDecodeError
  | f + 1, l, acc =>
    match l with
    | '"' :: t =>
      (match parseStr t with
       | .error e => .error e
       | .ok (k, r1) =>
         match skipJWs r1 with
         | ':' :: r3 =>
           (match parseVal f (skipJWs r3) with
            | .error e => .error e
            | .ok (v, r4) =>
              let acc' := objInsert acc k v
              match skipJWs r4 with
              | ',' :: r6 => parseMembers f (skipJWs r6) acc'
              | '}' :: r6 => .ok (.obj acc', r6)
              | _ => .error .jsonDecodeError)
         | _ => .error .jsonDecodeError)
    | _ => .error .jsonDecodeError

/-- Elements of an array, positioned at the start of a value. -/
def parseElems : ℕ → List Char → List JVal → Except PyExc (JVal × List Char)
  | 0, _, _ => .error .jsonDecodeError
  | f + 1, l, acc =>
    match parseVal f l with
    | .error e => .error e
    | .ok (v, r1) =>
      match skipJWs r1 with
      | ',' :: r3 => parseElems f (skipJWs r3) (v :: acc)
      | ']' :: r3 => .ok (.arr (v :: acc).reverse, r3)
      | _ => .error .jsonDecodeError

end

/-- `json.loads`: skip surrounding JSON whitespace, decode one value,
reject trailing garbage.  The fuel `l.length + 1` strictly exceeds any
possible nesting depth of the text. -/
def jsonLoads (l : List Char) : Except PyExc JVal :=
  match parseVal (l.length + 1) (skipJWs l) with
  | .error e => .error e
  | .ok (v, rest) => if skipJWs rest = [] then .ok v else .error .jsonDecodeError

/-! ### Python numeric coercions used by `_sanitize_data` -/

def lowerAscii (c : Char) : Char :=
  if 'A' ≤ c && c ≤ 'Z' then Char.ofNat (c.toNat + 32) else c

/-- `float(str)`: strip whitespace, optional sign, then a decimal literal
(`digits[.digits]`, `.digits`, optional exponent) or a case-insensitive
`inf`/`infinity`/`nan`.  (Underscore digit separators, accepted by CPython,
are not modelled and never exercised.) -/
def pyFloatOfStr (s : List Char) : Except PyExc PyFloat :=
  let s1 := pystrip s
  let (neg, s2) : Bool × List Char :=
    match s1 with
    | '-' :: t => (true, t)
    | '+' :: t => (false, t)
    | _ => (false, s1)
  let low := s2.map lowerAscii
  if low = ['i', 'n', 'f'] || low = ['i', 'n', 'f', 'i', 'n', 'i', 't', 'y'] then
    .ok (if neg then .ninf else .inf)
  else if low = ['n', 'a', 'n'] then .ok .nan
  else
    let (ds1, r1) := takeDigits s2
    let (fr, r2) : Option (List Char) × List Char :=
      match r1 with
      | '.' :: t =>
        (match takeDigits t with
         | (ds2, r2) => (some ds2, r2))
      | _ => (none, r1)
    if ds1 = [] && (fr = none || fr = some []) then .error .valueError
    else
      let base : ℚ := (digitsToNat ds1 : ℚ) +
        (match fr with
         | some ds => (digitsToNat ds : ℚ) / powTenN ds.length
         | none => 0)
      match r2 with
      | [] => .ok (pyFloatOfQ (if neg then -base else base))
      | e :: t =>
        if lowerAscii e = 'e' then
          let (eneg, t2) : Bool × List Char :=
            match t with
            | '-' :: t2 => (true, t2)
            | '+' :: t2 => (false, t2)
            | _ => (false, t)
          match takeDigits t2 with
          | ([], _) => .error .valueError
          | (eds, r3) =>
            if r3 = [] then
              let q : ℚ := base * powTenZ
                (if eneg then -(digitsToNat eds : ℤ) else (digitsToNat eds : ℤ))
              .ok (pyFloatOfQ (if neg then -q else q))
            else .error .valueError
        else .error .valueError

/-- Number of binary digits of `n` (`0` for `0`), fuel-structural so it
evaluates by kernel reduction.  The fuel covers every magnitude whose
rounded value the model distinguishes: a number of `2100` bits or more
is far beyond the double range and overflows whether or not its low
bits are rounded. -/
def bitLenF : ℕ → ℕ → ℕ
  | 0, _ => 0
  | f + 1, n => if n = 0 then 0 else bitLenF f (n / 2) + 1

def bitLen (n : ℕ) : ℕ := bitLenF 2100 n

/-- Round a natural number to 53 significant bits, ties to even — the
rounding CPython's `float(int)` performs on the magnitude. -/
def pyRoundNat (a : ℕ) : ℕ :=
  if bitLen a ≤ 53 then a
  else
    let s := bitLen a - 53
    let q := a / 2 ^ s
    let r := a % 2 ^ s
    let h := 2 ^ (s - 1)
    (if h < r then q + 1
     else if r < h then q
     else if q % 2 = 0 then q else q + 1) * 2 ^ s

/-- CPython `float(int)`: round the magnitude to the nearest double
(53-bit mantissa, ties to even) and raise `OverflowError` when the
rounded value reaches `2 ^ 1024`. -/
def pyFloatInt (n : ℤ) : Except PyExc PyFloat :=
  if 2 ^ 1024 ≤ pyRoundNat n.natAbs then .error .overflowError
  else .ok (.finite (if n < 0 then -((pyRoundNat n.natAbs : ℕ) : ℚ)
                     else ((pyRoundNat n.natAbs : ℕ) : ℚ)))

/-- `float(x)` on a decoded JSON value: ints round to the nearest double
and overflow past `2 ^ 1024` (`OverflowError`), bools coerce, strings
parse (`ValueError` on failure), everything else raises `TypeError`. -/
def pyFloatJ : JVal → Except PyExc PyFloat
  | .int n => pyFloatInt n
  | .float f => .ok f
  | .bool b => .ok (.finite (if b then 1 else 0))
  | .str s => pyFloatOfStr s
  | _ => .error .typeError

/-- `int(f)` on a float: truncation toward zero; `OverflowError` on
infinities, `ValueError` on NaN. -/
def pyIntOfFloat : PyFloat → Except PyExc ℤ
  | .finite q => .ok (if 0 ≤ q then ⌊q⌋ else -⌊-q⌋)
  | .inf => .error .overflowError
  | .ninf => .error .overflowError
  | .nan => .error .valueError

/-- `int(float(x))`. -/
def intFloat (v : JVal) : Except PyExc ℤ :=
  match pyFloatJ v with
  | .error e => .error e
  | .ok f => pyIntOfFloat f

/-- `max(0.0, f)`: returns `f` exactly when `f > 0.0` (so NaN gives `0.0`). -/
def pyMaxZero : PyFloat → PyFloat
  | .finite q => if 0 < q then .finite q else .finite 0
  | .inf => .inf
  | .ninf => .finite 0
  | .nan => .finite 0

/-! ### `_sanitize_data` -/

def kFindings : List Char := "key_findings".toList
def kEvents : List Char := "timestamp_events".toList
def kConfidence : List Char := "confidence_score".toList
def kRelated : List Char := "related_timestamps".toList
def kTimestamp : List Char := "timestamp_seconds".toList
def kImportance : List Char := "importance_score".toList
def kSummary : List Char := "summary_md".toList
def kVideoMd : List Char := "video_analysis_md".toList
def kAudioMd : List Char := "audio_analysis_md".toList
def kMetadata : List Char := "analysis_metadata".toList
def kCategory : List Char := "category".toList
def kTitle : List Char := "title".toList
def kContent : List Char := "content".toList
def kSeqOrder : List Char := "sequence_order".toList
def kEventType : List Char := "event_type".toList
def kDescription : List Char := "description".toList
def kKey : List Char := "key".toList
def kValue : List Char := "value".toList
def kDataType : List Char := "data_type".toList

/-- Sanitize one `key_findings` element: non-dict elements are dropped
(`none`); `confidence_score`, when present, is coerced by `int(float(x))`
and clamped to `[0, 100]`, with `ValueError`/`TypeError` defaulting to 80
and any other exception (`OverflowError`) propagating; a present
non-array `related_timestamps` is forced to `[]`. -/
def sanitizeFinding (v : JVal) : Except PyExc (Option JVal) :=
  match v with
  | .obj kvs =>
    ((match objLookup kvs kConfidence with
      | some cv =>
        (match intFloat cv with
         | .ok n => .ok (objInsert kvs kConfidence (.int (max 0 (min 100 n))))
         | .error .valueError => .ok (objInsert kvs kConfidence (.int 80))
         | .error .typeError => .ok (objInsert kvs kConfidence (.int 80))
         | .error e => .error e)
      | none => .ok kvs : Except PyExc (List (List Char × JVal)))).map
      (fun kvs1 =>
        match objLookup kvs1 kRelated with
        | some (.arr _) => some (.obj kvs1)
        | some _ => some (.obj (objInsert kvs1 kRelated (.arr [])))
        | none => some (.obj kvs1))
  | _ => .ok none

/-- Sanitize one `timestamp_events` element: non-dict elements are dropped;
`timestamp_seconds`, when present, is coerced by `float(x)` and clamped
to `≥ 0` (defaulting to `0.0` on `ValueError`/`TypeError`);
`importance_score`, when present, is coerced by `int(float(x))` and
clamped to `[1, 10]` (defaulting to 5); `OverflowError` propagates. -/
def sanitizeEvent (v : JVal) : Except PyExc (Option JVal) :=
  match v with
  | .obj kvs =>
    ((match objLookup kvs kTimestamp with
      | some tv =>
        (match pyFloatJ tv with
         | .ok f => .ok (objInsert kvs kTimestamp (.float (pyMaxZero f)))
         | .error .valueError => .ok (objInsert kvs kTimestamp (.float (.finite 0)))
         | .error .typeError => .ok (objInsert kvs kTimestamp (.float (.finite 0)))
         | .error e => .error e)
      | none => .ok kvs : Except PyExc (List (List Char × JVal)))).bind
      (fun kvs1 =>
        ((match objLookup kvs1 kImportance with
          | some iv =>
            (match intFloat iv with
             | .ok n => .ok (objInsert kvs1 kImportance (.int (max 1 (min 10 n))))
             | .error .valueError => .ok (objInsert kvs1 kImportance (.int 5))
             | .error .typeError => .ok (objInsert kvs1 kImportance (.int 5))
             | .error e => .error e)
          | none => .ok kvs1 : Except PyExc (List (List Char × JVal)))).map
          (fun kvs2 => some (.obj kvs2)))
  | _ => .ok none

/-- Left-to-right traversal collecting sanitized elements, dropping the
ones reported as `none`, propagating the first exception. -/
def sanitizeList (f : JVal → Except PyExc (Option JVal)) :
    List JVal → Except PyExc (List JVal)
  | [] => .ok []
  | x :: t =>
    match f x with
    | .error e => .error e
    | .ok none => sanitizeList f t
    | .ok (some y) =>
      (match sanitizeList f t with
       | .error e => .error e
       | .ok r => .ok (y :: r))

/-- `ResponseParser._sanitize_data`: non-dicts pass through; a present
list-valued `key_findings` and `timestamp_events` are rebuilt
element-wise; other keys are untouched. -/
def sanitizeData (d : JVal) : Except PyExc JVal :=
  match d with
  | .obj kvs =>
    ((match objLookup kvs kFindings with
      | some (.arr xs) =>
        (sanitizeList sanitizeFinding xs).map (fun ys => objInsert kvs kFindings (.arr ys))
      | _ => .ok kvs : Except PyExc (List (List Char × JVal)))).bind
      (fun kvs1 =>
        (match objLookup kvs1 kEvents with
         | some (.arr xs) =>
           (sanitizeList sanitizeEvent xs).map
             (fun ys => .obj (objInsert kvs1 kEvents (.arr ys)))
         | _ => .ok (.obj kvs1)))
  | _ => .ok d

/-! ### `jsonschema.validate` against `ResponseParser.SCHEMA`
(draft 2020-12 type semantics: `integer` admits ints and integral
floats; bools satisfy neither `integer` nor `number`). -/

def isNullV : JVal → Bool
  | .null => true
  | _ => false

def isStrV : JVal → Bool
  | .str _ => true
  | _ => false

def isNumV : JVal → Bool
  | .int _ => true
  | .float _ => true
  | _ => false

def isIntV : JVal → Bool
  | .int _ => true
  | .float (.finite q) => q.den = 1
  | _ => false

/-- `minimum b` keyword: vacuous on non-numbers; the library tests
`instance < minimum`, a comparison that is `False` for NaN, so NaN and
`inf` pass while `-inf` fails. -/
def numGE (v : JVal) (b : ℤ) : Bool :=
  match v with
  | .int n => b ≤ n
  | .float (.finite q) => (b : ℚ) ≤ q
  | .float .inf => true
  | .float .ninf => false
  | .float .nan => true
  | _ => true

/-- `maximum b` keyword: vacuous on non-numbers; the library tests
`instance > maximum`, which is `False` for NaN, so NaN and `-inf` pass
while `inf` fails. -/
def numLE (v : JVal) (b : ℤ) : Bool :=
  match v with
  | .int n => n ≤ b
  | .float (.finite q) => q ≤ (b : ℚ)
  | .float .inf => false
  | .float .ninf => true
  | .float .nan => true
  | _ => true

def hasKey (kvs : List (List Char × JVal)) (k : List Char) : Bool :=
  (objLookup kvs k).isSome

/-- Properties of a `key_findings` item. -/
def propOkFinding (k : List Char) (v : JVal) : Bool :=
  if k = kSeqOrder then isIntV v && numGE v 0
  else if k = kCategory then isStrV v
  else if k = kTitle then isStrV v
  else if k = kContent then isStrV v
  else if k = kConfidence then isIntV v && numGE v 0 && numLE v 100
  else if k = kRelated then
    (match v with
     | .arr xs => xs.all (fun x => isNumV x && numGE x 0)
     | _ => false)
  else true

/-- One `key_findings` item: an object with the required keys whose
declared properties validate. -/
def findingOk (v : JVal) : Bool :=
  match v with
  | .obj kvs =>
    hasKey kvs kCategory && hasKey kvs kTitle && hasKey kvs kContent &&
    hasKey kvs kConfidence && kvs.all (fun p => propOkFinding p.1 p.2)
  | _ => false

/-- Properties of a `timestamp_events` item. -/
def propOkEvent (k : List Char) (v : JVal) : Bool :=
  if k = kTimestamp then isNumV v && numGE v 0
  else if k = kEventType then isStrV v
  else if k = kTitle then isStrV v
  else if k = kDescription then isStrV v || isNullV v
  else if k = kImportance then isIntV v && numGE v 1 && numLE v 10
  else true

def eventOk (v : JVal) : Bool :=
  match v with
  | .obj kvs =>
    hasKey kvs kTimestamp && hasKey kvs kEventType && hasKey kvs kTitle &&
    kvs.all (fun p => propOkEvent p.1 p.2)
  | _ => false

/-- Properties of an `analysis_metadata` item. -/
def propOkMeta (k : List Char) (v : JVal) : Bool :=
  if k = kKey then isStrV v
  else if k = kValue then isStrV v || isNumV v || isNullV v
  else if k = kDataType then isStrV v || isNullV v
  else true

def metaOk (v : JVal) : Bool :=
  match v with
  | .obj kvs => hasKey kvs kKey && hasKey kvs kValue &&
      kvs.all (fun p => propOkMeta p.1 p.2)
  | _ => false

/-- A top-level property of `ResponseParser.SCHEMA`.  Keys the schema does
not mention are unconstrained. -/
def propOkTop (k : List Char) (v : JVal) : Bool :=
  if k = kVideoMd then isStrV v
  else if k = kAudioMd then isStrV v || isNullV v
  else if k = kSummary then
    (match v with
     | .str s => 10 ≤ s.length
     | _ => false)
  else if k = kFindings then
    (match v with
     | .arr xs => xs.all findingOk
     | _ => false)
  else if k = kEvents then
    (match v with
     | .arr xs => xs.all eventOk
     | _ => false)
  else if k = kMetadata then
    (match v with
     | .arr xs => xs.all metaOk
     | _ => false)
  else true

/-- `jsonschema.validate(instance, ResponseParser.SCHEMA)` as a predicate:
the instance is an object carrying the four required keys, and every
present key validates against its declared property schema. -/
def validateTop (v : JVal) : Bool :=
  match v with
  | .obj kvs =>
    hasKey kvs kVideoMd && hasKey kvs kSummary && hasKey kvs kFindings &&
    hasKey kvs kEvents && kvs.all (fun p => propOkTop p.1 p.2)
  | _ => false

/-! ### Markdown fence extraction and `parse` -/

/-- Does the text start with three backticks? -/
def fenceAt (l : List Char) : Bool :=
  match l with
  | a :: b :: c :: _ => a = btick && b = btick && c = btick
  | _ => false

/-- Is the next non-`\s` position a closing fence? -/
def fenceFollows (l : List Char) : Bool :=
  fenceAt (l.dropWhile isRWs)

/-- Lazy body scan of `(\{.*?\})\s*` + fence: shortest prefix whose next
`}` is followed by whitespace and a closing fence. -/
def mdContent : List Char → Option (List Char)
  | [] => none
  | c :: cs =>
    if c = '}' && fenceFollows cs then some []
    else (mdContent cs).map (fun con => c :: con)

/-- Try the full markdown pattern at this position: an opening fence,
an optional `json` tag, whitespace, then the lazily-matched braced body.
Returns the captured group `{...}`. -/
def mdMatchFrom (l : List Char) : Option (List Char) :=
  if fenceAt l then
    let r := l.drop 3
    let r1 := if r.take 4 = ['j', 's', 'o', 'n'] then r.drop 4 else r
    match r1.dropWhile isRWs with
    | '{' :: r3 => (mdContent r3).map (fun con => '{' :: (con ++ ['}']))
    | _ => none
  else none

/-- `re.search` of the markdown pattern: leftmost position that matches. -/
def mdSearch : List Char → Option (List Char)
  | [] => none
  | c :: cs =>
    match mdMatchFrom (c :: cs) with
    | some g => some g
    | none => mdSearch cs

/-- `ResponseParser._preprocess_response`: empty text passes through;
otherwise strip, extract a fenced JSON block when the text starts with a
fence, then apply the Stage B newline repair.  (The `try`/`except` around
the substitution never fires: the replacement function cannot raise.) -/
def preprocessResponse (t : List Char) : List Char :=
  if t = [] then t
  else
    let t1 := pystrip t
    let t2 :=
      if fenceAt t1 then
        match mdSearch t1 with
        | some g => pystrip g
        | none => t1
      else t1
    subFix t2

/-- `ResponseParser._extract_json_from_markdown`. -/
def extractJsonFromMarkdown (t : List Char) : Option JVal :=
  match mdSearch t with
  | some g =>
    (match jsonLoads g with
     | .ok d => some d
     | .error _ => none)
  | none => none

/-- The decode step of `parse` applied to preprocessed text: strict
decoding, falling back to fenced-block extraction on `JSONDecodeError`. -/
def decodeStage (p : List Char) : Option JVal :=
  match jsonLoads p with
  | .ok d => some d
  | .error _ => extractJsonFromMarkdown p

/-- The remainder of `parse` after preprocessing: decode, sanitize,
validate. -/
def parseFrom (p : List Char) : Except PyExc (Option JVal) :=
  match decodeStage p with
  | none => .ok none
  | some d =>
    match sanitizeData d with
    | .error e => .error e
    | .ok d2 => .ok (if validateTop d2 then some d2 else none)

/-- `ResponseParser.parse`: preprocess, strict-decode (falling back to
fenced-block extraction), sanitize, validate.  The result is `ok none`
where Python returns `None`, `ok (some d)` where it returns a dict, and
`error e` where an uncaught exception escapes. -/
def parse (t : List Char) : Except PyExc (Option JVal) :=
  parseFrom (preprocessResponse t)

/-! ### Python `==` on decoded values

`pyEq` models CPython's value equality as used when comparing a sanitized
structure with the structure it was derived from: numbers (ints, floats
and bools) compare across types by numeric value; container comparison is
taken entry-wise in order (the sanitizer preserves dict insertion order,
and ordered entry-wise equality implies Python's order-insensitive dict
`==`).  Corresponding NaN values compare equal, as CPython's
`PyObject_RichCompareBool` does for identical objects — which is the case
here, a NaN can only appear in a spot the sanitizer left untouched. -/

def pyEq : JVal → JVal → Bool
  | .null, .null => true
  | .bool a, .bool b => a = b
  | .bool a, .int n => (if a then (1 : ℤ) else 0) = n
  | .int n, .bool a => n = (if a then (1 : ℤ) else 0)
  | .bool a, .float f => PyFloat.finite (if a then (1 : ℚ) else 0) = f
  | .float f, .bool a => f = PyFloat.finite (if a then (1 : ℚ) else 0)
  | .int n, .int m => n = m
  | .int n, .float f => PyFloat.finite (n : ℚ) = f
  | .float f, .int n => f = PyFloat.finite (n : ℚ)
  | .float f, .float g => f = g
  | .str a, .str b => a = b
  | .arr [], .arr [] => true
  | .arr (x :: xs), .arr (y :: ys) => pyEq x y && pyEq (.arr xs) (.arr ys)
  | .obj [], .obj [] => true
  | .obj ((k, v) :: a), .obj ((k', v') :: b) =>
    k = k' && pyEq v v' && pyEq (.obj a) (.obj b)
  | _, _ => false

/-! ### The relational schema's cascade rules (C8)

A database state over the six tables of `_initialize_database`, carrying
only primary keys and the foreign-key columns.  Foreign keys are enforced
(`PRAGMA foreign_keys = ON` is set on every connection). -/

structure SchemaState where
  recordings : List String
  /-- `(keyframe_id, recording_id)`; `recording_id` references
  `recording` with `ON DELETE CASCADE`. -/
  keyframes : List (String × String)
  /-- `(analysis_id, keyframe_id)`; `keyframe_id` is nullable and
  references `keyframe_video` with `ON DELETE CASCADE`. -/
  analyses : List (String × Option String)
  /-- `(event_id, analysis_id)`; cascades from `ai_analysis`. -/
  events : List (String × String)
  /-- `(finding_id, analysis_id)`; cascades from `ai_analysis`. -/
  findings : List (String × String)
  /-- `(metadata_id, analysis_id)`; cascades from `ai_analysis`. -/
  metadataRows : List (String × String)

/-- SQLite's `DELETE FROM recording WHERE record_id = rid` under the
declared `ON DELETE CASCADE` graph: child rows whose foreign key matches
a deleted parent row are deleted in turn. -/
def deleteRecording (rid : String) (st : SchemaState) : SchemaState :=
  let delKfIds := (st.keyframes.filter (fun k => k.2 = rid)).map (fun k => k.1)
  let anDeleted : String × Option String → Bool := fun a =>
    match a.2 with
    | some kid => delKfIds.contains kid
    | none => false
  let delAnIds := (st.analyses.filter anDeleted).map (fun a => a.1)
  { recordings := st.recordings.filter (fun r => r ≠ rid)
    keyframes := st.keyframes.filter (fun k => k.2 ≠ rid)
    analyses := st.analyses.filter (fun a => ¬ anDeleted a)
    events := st.events.filter (fun e => ¬ delAnIds.contains e.2)
    findings := st.findings.filter (fun f => ¬ delAnIds.contains f.2)
    metadataRows := st.metadataRows.filter (fun m => ¬ delAnIds.contains m.2) }

/-- A keyframe row is a descendant of recording `rid` through the
schema's foreign keys. -/
def kfRowReach (rid : String) (k : String × String) : Prop := k.2 = rid

/-- An analysis row is a descendant of `rid`: its (non-null) keyframe
foreign key points at a keyframe row of `rid` in state `st`. -/
def anRowReach (st : SchemaState) (rid : String) (a : String × Option String) : Prop :=
  ∃ kid, a.2 = some kid ∧ ∃ k ∈ st.keyframes, k.1 = kid ∧ k.2 = rid

/-- A child row (event / finding / metadata) is a descendant of `rid`:
its analysis foreign key points at a descendant analysis row. -/
def childRowReach (st : SchemaState) (rid : String) (c : String × String) : Prop :=
  ∃ a ∈ st.analyses, a.1 = c.2 ∧ anRowReach st rid a

/-! ### `save_ai_analysis_result` (C9, C10) -/

/-- A `timestamp_event` row as built by `save_ai_analysis_result`
(the id is a fresh uuid, not modelled). -/
structure EventRow where
  timestamp_seconds : PyFloat
  event_type : JVal
  title : JVal
  description : JVal
  importance_score : JVal

/-- A `key_finding` row as built by `save_ai_analysis_result`. -/
structure FindingRow where
  sequence_order : JVal
  category : JVal
  title : JVal
  content : JVal
  confidence_score : JVal
  related_timestamps : JVal

/-- An `analysis_metadata` row as built by `save_ai_analysis_result`:
the stored value is `str(...)` of the entry's value. -/
structure MetaRow where
  key : JVal
  value : List Char
  data_type : JVal

/-- Everything `save_ai_analysis_result` wrote on the success path. -/
structure SavedRows where
  /-- Number of `ai_analysis` rows inserted (always 1 on success). -/
  analysesInserted : ℕ
  events : List EventRow
  findings : List FindingRow
  metadataRows : List MetaRow
  /-- One legacy `AnalysisRecord` was added to the in-memory cache. -/
  legacyRecordAdded : Bool
  /-- Whether `_save_analyses` managed to rewrite the legacy JSON file. -/
  legacyFileWritten : Bool

/-- Outcomes of the external effects of one `save_ai_analysis_result`
call: the keyframes returned for the recording, whether each DAO insert
succeeds, and whether the legacy mirror's file write succeeds. -/
structure SaveEnv where
  keyframeIds : List String
  analysisInsertOk : Bool
  eventInsertOk : ℕ → Bool
  findingInsertOk : ℕ → Bool
  metaInsertOk : ℕ → Bool
  mirrorFileWriteOk : Bool

/-- Python `d.get(k, dflt)`: `AttributeError` when the receiver is not a
dict. -/
def jGet (v : JVal) (k : List Char) (dflt : JVal) : Except PyExc JVal :=
  match v with
  | .obj kvs => .ok ((objLookup kvs k).getD dflt)
  | _ => .error .attributeError

/-- Iterating `for x in v`: the loop bodies immediately call `.get` on
each element, so any non-list iterable fails with an exception either at
the loop head or on the first element; `TypeError` stands for both. -/
def jIter (v : JVal) : Except PyExc (List JVal) :=
  match v with
  | .arr xs => .ok xs
  | _ => .error .typeError

/-- CPython `str(float)` for the values this development stores:
integral finite floats render as `n.0`; others are simplified
(never exercised by a claim). -/
def pyStrFloat : PyFloat → List Char
  | .finite q =>
    if q.den = 1 then (toString q.num).toList ++ ['.', '0']
    else (toString q.num).toList ++ '/' :: (toString q.den).toList
  | .inf => ['i', 'n', 'f']
  | .ninf => ['-', 'i', 'n', 'f']
  | .nan => ['n', 'a', 'n']

mutual

/-- CPython `repr(x)` on a decoded JSON value: like `str` except that
strings are single-quoted (ASCII, no escaping — sufficient for every
value this development stores). -/
def pyRepr : JVal → List Char
  | .null => ['N', 'o', 'n', 'e']
  | .bool b => if b then ['T', 'r', 'u', 'e'] else ['F', 'a', 'l', 's', 'e']
  | .int n => (toString n).toList
  | .float f => pyStrFloat f
  | .str s => '\'' :: s ++ ['\'']
  | .arr xs => '[' :: pyReprList xs ++ [']']
  | .obj kvs => '{' :: pyReprObj kvs ++ ['}']

def pyReprList : List JVal → List Char
  | [] => []
  | [x] => pyRepr x
  | x :: xs => pyRepr x ++ ',' :: ' ' :: pyReprList xs

def pyReprObj : List (List Char × JVal) → List Char
  | [] => []
  | [(k, v)] => '\'' :: k ++ '\'' :: ':' :: ' ' :: pyRepr v
  | (k, v) :: kvs =>
    '\'' :: k ++ '\'' :: ':' :: ' ' :: pyRepr v ++ ',' :: ' ' :: pyReprObj kvs

end

/-- CPython `str(x)`: identical to `repr` except on strings, which render
as themselves. -/
def pyStr (v : JVal) : List Char :=
  match v with
  | .str s => s
  | _ => pyRepr v

/-- Build one `timestamp_event` row (`float` coercion on the timestamp
may raise; everything else is passed through). -/
def mkEventRow (e : JVal) : Except PyExc EventRow := do
  let tsv ← jGet e kTimestamp (.int 0)
  let ts ← pyFloatJ tsv
  let et ← jGet e kEventType (.str "highlight".toList)
  let ti ← jGet e kTitle (.str [])
  let de ← jGet e kDescription (.str [])
  let im ← jGet e kImportance (.int 5)
  pure { timestamp_seconds := ts, event_type := et, title := ti,
         description := de, importance_score := im }

/-- Build one `key_finding` row (`i` is the element's index, the default
`sequence_order`). -/
def mkFindingRow (i : ℕ) (f : JVal) : Except PyExc FindingRow := do
  let so ← jGet f kSeqOrder (.int i)
  let ca ← jGet f kCategory (.str "general".toList)
  let ti ← jGet f kTitle (.str [])
  let co ← jGet f kContent (.str [])
  let cs ← jGet f kConfidence (.int 80)
  let rt ← jGet f kRelated (.arr [])
  pure { sequence_order := so, category := ca, title := ti, content := co,
         confidence_score := cs, related_timestamps := rt }

/-- Build one `analysis_metadata` row: the stored value is
`str(meta.get("value", ""))`. -/
def mkMetaRow (m : JVal) : Except PyExc MetaRow := do
  let k ← jGet m kKey (.str [])
  let v ← jGet m kValue (.str [])
  let dt ← jGet m kDataType (.str "string".toList)
  pure { key := k, value := pyStr v, data_type := dt }

/-- Insert loop for the events of a result. -/
def insertEvents (env : SaveEnv) : ℕ → List JVal → Except PyExc (List EventRow)
  | _, [] => .ok []
  | i, e :: t =>
    match mkEventRow e with
    | .error ex => .error ex
    | .ok row =>
      if env.eventInsertOk i then
        (insertEvents env (i + 1) t).map (fun r => row :: r)
      else .error .dbError

/-- Insert loop for the findings of a result. -/
def insertFindings (env : SaveEnv) : ℕ → List JVal → Except PyExc (List FindingRow)
  | _, [] => .ok []
  | i, f :: t =>
    match mkFindingRow i f with
    | .error ex => .error ex
    | .ok row =>
      if env.findingInsertOk i then
        (insertFindings env (i + 1) t).map (fun r => row :: r)
      else .error .dbError

/-- Insert loop for the metadata of a result. -/
def insertMetas (env : SaveEnv) : ℕ → List JVal → Except PyExc (List MetaRow)
  | _, [] => .ok []
  | i, m :: t =>
    match mkMetaRow m with
    | .error ex => .error ex
    | .ok row =>
      if env.metaInsertOk i then
        (insertMetas env (i + 1) t).map (fun r => row :: r)
      else .error .dbError

/-- Steps 1–5 of `save_ai_analysis_result`: resolve keyframes, insert the
`ai_analysis` row, then the events, findings and metadata rows.  Any
exception aborts the remaining inserts. -/
def saveInserts (env : SaveEnv) (result : JVal) : Except PyExc SavedRows := do
  let _ ← jGet result kVideoMd (.str [])
  let _ ← jGet result kAudioMd (.str [])
  let _ ← jGet result kSummary (.str [])
  let _ ← jGet result ("model_name".toList) (.str "gemini-model".toList)
  let _ ← (if env.analysisInsertOk then .ok () else .error .dbError :
      Except PyExc Unit)
  let evs ← jIter (← jGet result kEvents (.arr []))
  let eventRows ← insertEvents env 0 evs
  let fns ← jIter (← jGet result kFindings (.arr []))
  let findingRows ← insertFindings env 0 fns
  let ms ← jIter (← jGet result kMetadata (.arr []))
  let metaRows ← insertMetas env 0 ms
  pure { analysesInserted := 1, events := eventRows, findings := findingRows,
         metadataRows := metaRows, legacyRecordAdded := false,
         legacyFileWritten := false }

/-- `HistoryService.add_analysis` as called from step 6: builds an
`AnalysisRecord`, stores it in the in-memory cache, and calls
`_save_analyses`, whose file write is wrapped in a `try`/`except` that
logs and swallows every exception — so the call returns normally whether
or not the file write succeeds. -/
def addAnalysisMirror (env : SaveEnv) (rows : SavedRows) : SavedRows :=
  { rows with legacyRecordAdded := true,
              legacyFileWritten := env.mirrorFileWriteOk }

/-- `save_ai_analysis_result`: one `try` block around steps 1–6 returning
`True`, with `except Exception: return False`. -/
def saveAiAnalysisResult (env : SaveEnv) (result : JVal) : Bool × Option SavedRows :=
  match saveInserts env result with
  | .ok rows => (true, some (addAnalysisMirror env rows))
  | .error _ => (false, none)

/-- The text contains no physical newline or carriage return. -/
def noNLCR (l : List Char) : Bool :=
  l.all (fun c => (c != '\n') && (c != '\r'))

/-- The text contains a triple-backtick fence somewhere. -/
def hasFence : List Char → Bool
  | [] => false
  | c :: cs => fenceAt (c :: cs) || hasFence cs

/-- The text contains an occurrence of the Stage B pattern whose content
group carries a physical newline — the claim C1 premise, read off the
spec's description of the repair pass. -/
def hasNLPattern : List Char → Bool
  | [] => false
  | c :: cs =>
    (match matchAt (c :: cs) with
     | some (_, con, _, _) => con.contains '\n'
     | none => false) || hasNLPattern cs

/-! ### Decomposition of Stage B matches -/

theorem sufMatch_decomp {l g3 rest} (h : sufMatch l = some (g3, rest)) :
    l = g3 ++ rest := by
  unfold sufMatch at h
  split at h
  next d r heq =>
    split at h
    · injection h with h
      have h2 : g3 = (spanWs l).1 ++ [d] := (congrArg Prod.fst h).symm
      have h3 : rest = r := (congrArg Prod.snd h).symm
      have hd : l.dropWhile isRWs = d :: r := by simpa [spanWs] using heq
      rw [h2, h3]
      conv_lhs => rw [← List.takeWhile_append_dropWhile (p := isRWs) (l := l)]
      rw [hd]
      simp [spanWs]
    · exact absurd h (by simp)
  next => exact absurd h (by simp)

theorem contentMatch_decomp {l con g3 rest}
    (h : contentMatch l = some (con, g3, rest)) :
    l = con ++ '"' :: (g3 ++ rest) := by
  induction l generalizing con g3 rest with
  | nil => simp [contentMatch] at h
  | cons c cs ih =>
    rw [contentMatch] at h
    split at h
    next hc =>
      split at h
      next g3' rest' heq =>
        injection h with h
        have h1 : con = [] := (congrArg Prod.fst h).symm
        have h2 : g3 = g3' := (congrArg (fun p => p.2.1) h).symm
        have h3 : rest = rest' := (congrArg (fun p => p.2.2) h).symm
        rw [h1, h2, h3, hc]
        simpa using sufMatch_decomp heq
      next heq =>
        split at h
        next con' g3'' rest'' heq2 =>
          injection h with h
          have h1 : con = c :: con' := (congrArg Prod.fst h).symm
          have h2 : g3 = g3'' := (congrArg (fun p => p.2.1) h).symm
          have h3 : rest = rest'' := (congrArg (fun p => p.2.2) h).symm
          rw [h1, h2, h3]
          simpa using ih heq2
        next => exact absurd h (by simp)
    next hc =>
      split at h
      next con' g3'' rest'' heq2 =>
        injection h with h
        have h1 : con = c :: con' := (congrArg Prod.fst h).symm
        have h2 : g3 = g3'' := (congrArg (fun p => p.2.1) h).symm
        have h3 : rest = rest'' := (congrArg (fun p => p.2.2) h).symm
        rw [h1, h2, h3]
        simpa using ih heq2
      next => exact absurd h (by simp)

theorem matchAt_decomp {l g1 con g3 rest}
    (h : matchAt l = some (g1, con, g3, rest)) :
    l = g1 ++ '"' :: (con ++ '"' :: (g3 ++ rest)) := by
  unfold matchAt at h
  split at h
  next r2 heq =>
    split at h
    next r4 heq2 =>
      split at h
      next con' g3' rest' heq3 =>
        injection h with h
        have hg1 : g1 = (spanWs l).1 ++ ':' :: (spanWs r2).1 := (congrArg Prod.fst h).symm
        have hcon : con = con' := (congrArg (fun p => p.2.1) h).symm
        have hg3 : g3 = g3' := (congrArg (fun p => p.2.2.1) h).symm
        have hrest : rest = rest' := (congrArg (fun p => p.2.2.2) h).symm
        have hd1 : l.dropWhile isRWs = ':' :: r2 := by simpa [spanWs] using heq
        have hd2 : r2.dropWhile isRWs = '"' :: r4 := by simpa [spanWs] using heq2
        have e3 : r4 = con' ++ '"' :: (g3' ++ rest') := contentMatch_decomp heq3
        rw [hg1, hcon, hg3, hrest]
        conv_lhs => rw [← List.takeWhile_append_dropWhile (p := isRWs) (l := l)]
        rw [hd1]
        conv_lhs => rw [← List.takeWhile_append_dropWhile (p := isRWs) (l := r2)]
        rw [hd2, e3]
        simp [spanWs]
      next => exact absurd h (by simp)
    next => exact absurd h (by simp)
  next => exact absurd h (by simp)

/-! ### Unfolding equations for `subFix` -/

theorem subFix_nil : subFix [] = [] := rfl

theorem subFix_match {c cs g1 con g3 rest}
    (hm : matchAt (c :: cs) = some (g1, con, g3, rest)) :
    subFix (c :: cs) = g1 ++ '"' :: (fixContent con ++ '"' :: (g3 ++ subFix rest)) := by
  show subFixF (cs.length + 1) (c :: cs) = _
  rw [subFixF, hm]
  have hlen := matchAt_length hm
  simp only [List.length_cons] at hlen
  exact congrArg (fun x => g1 ++ '"' :: (fixContent con ++ '"' :: (g3 ++ x)))
    (subFixF_congr cs.length rest (by omega))

theorem subFix_nomatch {c cs} (hm : matchAt (c :: cs) = none) :
    subFix (c :: cs) = c :: subFix cs := by
  show subFixF (cs.length + 1) (c :: cs) = _
  rw [subFixF, hm]
  exact congrArg (fun x => c :: x) (subFixF_congr cs.length cs le_rfl)

/-! ### Stage B is the identity on texts free of newline characters -/

theorem fixContent_id {l : List Char}
    (h : ∀ c ∈ l, c ≠ '\n' ∧ c ≠ '\r') : fixContent l = l := by
  induction l with
  | nil => rfl
  | cons c cs ih =>
    have hc := h c (by simp)
    rw [fixContent, if_neg hc.1, if_neg hc.2, ih (fun x hx => h x (by simp [hx]))]

theorem noNLCR_iff {l : List Char} :
    noNLCR l = true ↔ ∀ c ∈ l, c ≠ '\n' ∧ c ≠ '\r' := by
  simp [noNLCR, List.all_eq_true]

theorem subFix_id_aux : ∀ (n : ℕ) (l : List Char), l.length ≤ n →
    noNLCR l = true → subFix l = l := by
  intro n
  induction n with
  | zero =>
    intro l hl _
    cases l with
    | nil => rfl
    | cons c cs => simp at hl
  | succ n ih =>
    intro l hl h
    cases l with
    | nil => rfl
    | cons c cs =>
      cases hm : matchAt (c :: cs) with
      | some quad =>
        obtain ⟨g1, con, g3, rest⟩ := quad
        rw [subFix_match hm]
        have hd := matchAt_decomp hm
        have hmem : ∀ x ∈ con, x ≠ '\n' ∧ x ≠ '\r' := by
          intro x hx
          exact (noNLCR_iff.1 h) x (by rw [hd]; simp [hx])
        have hrest : noNLCR rest = true := by
          rw [noNLCR_iff]
          intro x hx
          exact (noNLCR_iff.1 h) x (by rw [hd]; simp [hx])
        have hlen := matchAt_length hm
        simp only [List.length_cons] at hlen hl
        rw [fixContent_id hmem, ih rest (by omega) hrest, hd]
      | none =>
        rw [subFix_nomatch hm]
        have hcs : noNLCR cs = true := by
          rw [noNLCR_iff]
          intro x hx
          exact (noNLCR_iff.1 h) x (by simp [hx])
        simp only [List.length_cons] at hl
        rw [ih cs (by omega) hcs]

theorem subFix_id {l : List Char} (h : noNLCR l = true) : subFix l = l :=
  subFix_id_aux l.length l le_rfl h

/-! ### Where the Stage B scan cannot match -/

theorem matchAt_eq_none {l : List Char}
    (h : (l.dropWhile isRWs).head? ≠ some ':') : matchAt l = none := by
  unfold matchAt
  split
  next r2 heq =>
    exfalso
    apply h
    have h2 : l.dropWhile isRWs = ':' :: r2 := heq
    rw [h2]
    rfl
  next => rfl

theorem dropWhile_head_not {p : Char → Bool} :
    ∀ {l : List Char} {c}, (l.dropWhile p).head? = some c → p c = false := by
  intro l
  induction l with
  | nil => intro c h; simp at h
  | cons a t ih =>
    intro c h
    rw [List.dropWhile_cons] at h
    split at h
    next hpa => exact ih h
    next hpa =>
      injection h with h
      rw [← h]
      simpa using hpa

theorem dropWhile_head_mem {p : Char → Bool} {l : List Char} {c}
    (h : (l.dropWhile p).head? = some c) : c ∈ l :=
  (List.dropWhile_sublist (p := p) (l := l)).mem (List.mem_of_mem_head? h)

theorem dropWhile_ne_nil_of_mem {p : Char → Bool} {l : List Char} {c}
    (hc : c ∈ l) (hp : p c = false) : l.dropWhile p ≠ [] := by
  intro hnil
  have h2 := List.takeWhile_append_dropWhile (p := p) (l := l)
  rw [hnil, List.append_nil] at h2
  rw [← h2] at hc
  have h3 := List.mem_takeWhile_imp hc
  rw [hp] at h3
  exact Bool.false_ne_true h3

/-- Every nonempty suffix of `u` whose last element is not whitespace and
whose non-whitespace characters are not colons starts a failed Stage B
match, whatever follows. -/
theorem subFix_append_walk {rest : List Char} : ∀ {u : List Char},
    (∃ d, u.getLast? = some d ∧ isRWs d = false) →
    (∀ c ∈ u, isRWs c = false → c ≠ ':') →
    subFix (u ++ rest) = u ++ subFix rest := by
  intro u
  induction u with
  | nil => intro _ _; simp
  | cons a t ih =>
    intro hlast hchars
    obtain ⟨d, hdl, hdw⟩ := hlast
    have hdin : d ∈ a :: t := by
      obtain ⟨hne0, heq0⟩ := List.mem_getLast?_eq_getLast (l := a :: t) (x := d) (by rw [hdl]; rfl)
      rw [heq0]
      exact List.getLast_mem hne0
    have hne : (a :: t).dropWhile isRWs ≠ [] := dropWhile_ne_nil_of_mem hdin hdw
    have happ : ((a :: t) ++ rest).dropWhile isRWs = (a :: t).dropWhile isRWs ++ rest := by
      rw [List.dropWhile_append]
      simp only [List.isEmpty_iff]
      rw [if_neg hne]
    have hhead : (((a :: t) ++ rest).dropWhile isRWs).head? ≠ some ':' := by
      rw [happ]
      obtain ⟨c0, cs0, hc0⟩ := List.exists_cons_of_ne_nil hne
      rw [hc0]
      simp only [List.cons_append, List.head?_cons]
      intro hcontra
      injection hcontra with hcontra
      have hpc : isRWs c0 = false := dropWhile_head_not (l := a :: t) (by rw [hc0]; rfl)
      have hmem : c0 ∈ a :: t := dropWhile_head_mem (l := a :: t) (by rw [hc0]; rfl)
      exact hchars c0 hmem hpc hcontra
    have hm : matchAt ((a :: t) ++ rest) = none := matchAt_eq_none hhead
    rw [List.cons_append] at hm ⊢
    rw [subFix_nomatch hm]
    simp only [List.cons_append, List.cons.injEq, true_and]
    cases t with
    | nil => simp
    | cons b t2 =>
      exact ih ⟨d, by rwa [List.getLast?_cons_cons] at hdl, hdw⟩
        (fun c hc hw => hchars c (List.mem_cons_of_mem a hc) hw)

/-! ### A repairable class of broken JSON for claim C1

A flat JSON object of string fields, rendered with the exact layout
`{"k": "v", ...}`, whose values may contain raw newlines and carriage
returns.  Keys avoid colon/quote/backslash/control characters; values
avoid quote/backslash/control characters other than `\n` and `\r`. -/

def goodKeyChar (c : Char) : Bool :=
  (0x20 ≤ c.toNat) && c ≠ ':' && c ≠ '"' && c ≠ '\\'

def goodValChar (c : Char) : Bool :=
  c = '\n' || c = '\r' || ((0x20 ≤ c.toNat) && c ≠ '"' && c ≠ '\\')

def goodPair (p : List Char × List Char) : Bool :=
  p.1.all goodKeyChar && p.2.all goodValChar

def renderPair (p : List Char × List Char) : List Char :=
  '"' :: p.1 ++ '"' :: ':' :: ' ' :: '"' :: p.2 ++ ['"']

def joinPairs : List (List Char × List Char) → List Char
  | [] => []
  | [p] => renderPair p
  | p :: ps => renderPair p ++ ',' :: ' ' :: joinPairs ps

def renderObj (ps : List (List Char × List Char)) : List Char :=
  '{' :: joinPairs ps ++ ['}']

/-- The render after Stage B repair: values with `\n` escaped and `\r`
stripped. -/
def renderPairFix (p : List Char × List Char) : List Char :=
  '"' :: p.1 ++ '"' :: ':' :: ' ' :: '"' :: fixContent p.2 ++ ['"']

def joinPairsFix : List (List Char × List Char) → List Char
  | [] => []
  | [p] => renderPairFix p
  | p :: ps => renderPairFix p ++ ',' :: ' ' :: joinPairsFix ps

def stripCR (l : List Char) : List Char :=
  l.filter (fun c => c != '\r')

/-- The decoded field a repaired pair produces: the value with carriage
returns gone and newlines restored from their escapes. -/
def pairVal (p : List Char × List Char) : List Char × JVal :=
  (p.1, .str (stripCR p.2))

theorem isDelim_cases {d : Char} (h : isDelim d = true) :
    d = ',' ∨ d = '}' ∨ d = ']' := by
  simp [isDelim] at h
  rcases h with (h | h) | h <;> simp [h]

theorem isRWs_of_delim {d : Char} (h : isDelim d = true) : isRWs d = false := by
  rcases isDelim_cases h with h | h | h <;> subst h <;> decide

/-- The non-greedy content scan over a quote-free value stops exactly at
its closing quote when a delimiter follows directly. -/
theorem contentMatch_run {d : Char} (hd : isDelim d = true) :
    ∀ {v t : List Char}, (∀ c ∈ v, c ≠ '"') →
    contentMatch (v ++ '"' :: d :: t) = some (v, [d], t) := by
  intro v
  induction v with
  | nil =>
    intro t _
    rw [List.nil_append, contentMatch, if_pos rfl]
    have hsuf : sufMatch (d :: t) = some ([d], t) := by
      unfold sufMatch
      have hdw := isRWs_of_delim hd
      have h2 : (spanWs (d :: t)).2 = d :: t := by simp [spanWs, List.dropWhile_cons, hdw]
      have h1 : (spanWs (d :: t)).1 = [] := by simp [spanWs, List.takeWhile_cons, hdw]
      rw [h2, h1]
      simp [hd]
    rw [hsuf]
  | cons c v' ih =>
    intro t hv
    have hc : c ≠ '"' := hv c (by simp)
    rw [List.cons_append, contentMatch, if_neg hc,
        ih (fun x hx => hv x (by simp [hx]))]

/-- The Stage B pattern matches at the colon of a rendered pair, capturing
the whole quote-free value. -/
theorem matchAt_colon {v t : List Char} {d : Char} (hv : ∀ c ∈ v, c ≠ '"')
    (hd : isDelim d = true) :
    matchAt (':' :: ' ' :: '"' :: (v ++ '"' :: d :: t)) =
      some ([':', ' '], v, [d], t) := by
  have w1 : isRWs ':' = false := by decide
  have w2 : isRWs ' ' = true := by decide
  have w3 : isRWs '"' = false := by decide
  have h2 : (spanWs (':' :: ' ' :: '"' :: (v ++ '"' :: d :: t))).2 =
      ':' :: ' ' :: '"' :: (v ++ '"' :: d :: t) := by
    simp [spanWs, List.dropWhile_cons, w1]
  have h3 : (spanWs (' ' :: '"' :: (v ++ '"' :: d :: t))).2 =
      '"' :: (v ++ '"' :: d :: t) := by
    simp [spanWs, List.dropWhile_cons, w2, w3]
  have h1 : (spanWs (':' :: ' ' :: '"' :: (v ++ '"' :: d :: t))).1 = [] := by
    simp [spanWs, List.takeWhile_cons, w1]
  have h4 : (spanWs (' ' :: '"' :: (v ++ '"' :: d :: t))).1 = [' '] := by
    simp [spanWs, List.takeWhile_cons, w2, w3]
  unfold matchAt
  split
  next r2 heq =>
    rw [h2] at heq
    injection heq with heqh heq
    subst heq
    split
    next r4 heq2 =>
      rw [h3] at heq2
      injection heq2 with heqh2 heq2
      subst heq2
      split
      next con g3 rest heq3 =>
        rw [contentMatch_run hd hv] at heq3
        injection heq3 with heq3
        rw [show con = v from (congrArg Prod.fst heq3).symm,
            show g3 = [d] from (congrArg (fun p => p.2.1) heq3).symm,
            show rest = t from (congrArg (fun p => p.2.2) heq3).symm,
            h1, h4]
        simp
      next heq3 => rw [contentMatch_run hd hv] at heq3; exact absurd heq3 (by simp)
    next heq2 => rw [h3] at heq2; exact (heq2 _ rfl).elim
  next heq => rw [h2] at heq; exact (heq _ rfl).elim

/-- Stage B over one rendered pair followed by its delimiter: the scan
passes the key untouched, then rewrites the value in place. -/
theorem subFix_pair {k v t : List Char} {d : Char}
    (hk : k.all goodKeyChar = true) (hv : ∀ c ∈ v, c ≠ '"') (hd : isDelim d = true) :
    subFix ('"' :: k ++ '"' :: ':' :: ' ' :: '"' :: (v ++ '"' :: d :: t)) =
    '"' :: k ++ '"' :: ':' :: ' ' :: '"' :: (fixContent v ++ '"' :: d :: subFix t) := by
  have hwalk := @subFix_append_walk
    (':' :: ' ' :: '"' :: (v ++ '"' :: d :: t))
    ('"' :: k ++ ['"'])
    (by
      refine ⟨'"', ?_, by decide⟩
      rw [show ('"' :: k ++ ['"'] : List Char) = ('"' :: k) ++ ['"'] by simp]
      rw [List.getLast?_append]
      rfl)
    (by
      intro c hc _
      simp at hc
      rcases hc with hc | hc | hc
      · subst hc; decide
      · have hgc := (List.all_eq_true.1 hk) c hc
        intro hcEq
        rw [hcEq] at hgc
        exact absurd hgc (by decide)
      · subst hc; decide)
  have e1 : ('"' :: k ++ '"' :: ':' :: ' ' :: '"' :: (v ++ '"' :: d :: t) : List Char) =
      ('"' :: k ++ ['"']) ++ (':' :: ' ' :: '"' :: (v ++ '"' :: d :: t)) := by simp
  rw [e1, hwalk]
  rw [subFix_match (matchAt_colon hv hd)]
  simp

theorem goodVal_ne_quote {v : List Char} (hv : v.all goodValChar = true) :
    ∀ c ∈ v, c ≠ '"' := by
  intro c hc hEq
  have hgc := List.all_eq_true.1 hv c hc
  rw [hEq] at hgc
  exact absurd hgc (by decide)

theorem joinPairs_head (p : List Char × List Char)
    (ps : List (List Char × List Char)) :
    ∃ u, joinPairs (p :: ps) = '"' :: u := by
  cases ps with
  | nil =>
    exact ⟨p.1 ++ '"' :: ':' :: ' ' :: '"' :: (p.2 ++ ['"']),
      by simp [joinPairs, renderPair]⟩
  | cons q ps' =>
    exact ⟨p.1 ++ '"' :: ':' :: ' ' :: '"' :: (p.2 ++ '"' :: ',' :: ' ' :: joinPairs (q :: ps')),
      by simp [joinPairs, renderPair]⟩

/-- Stage B over the joined pairs of the render (terminated by the
closing brace): every value is rewritten in place. -/
theorem subFix_join : ∀ ps : List (List Char × List Char),
    ps.all goodPair = true →
    subFix (joinPairs ps ++ ['}']) = joinPairsFix ps ++ ['}'] := by
  intro ps
  induction ps with
  | nil =>
    intro _
    have hm : matchAt ['}'] = none := matchAt_eq_none (by decide)
    simp only [joinPairs, joinPairsFix, List.nil_append]
    rw [subFix_nomatch hm, subFix_nil]
  | cons p ps' ih =>
    intro hg
    obtain ⟨k, v⟩ := p
    rw [List.all_cons, Bool.and_eq_true] at hg
    obtain ⟨hp, hps⟩ := hg
    rw [goodPair, Bool.and_eq_true] at hp
    obtain ⟨hkall, hvall⟩ := hp
    have hvq := goodVal_ne_quote hvall
    cases ps' with
    | nil =>
      have e : joinPairs [(k, v)] ++ ['}'] =
          '"' :: k ++ '"' :: ':' :: ' ' :: '"' :: (v ++ '"' :: '}' :: []) := by
        simp [joinPairs, renderPair]
      rw [e, subFix_pair hkall hvq (by decide), subFix_nil]
      simp [joinPairsFix, renderPairFix]
    | cons q ps'' =>
      have e : joinPairs ((k, v) :: q :: ps'') ++ ['}'] =
          '"' :: k ++ '"' :: ':' :: ' ' :: '"' ::
            (v ++ '"' :: ',' :: (' ' :: (joinPairs (q :: ps'') ++ ['}']))) := by
        simp [joinPairs, renderPair]
      rw [e, subFix_pair hkall hvq (by decide)]
      have hone : matchAt (' ' :: (joinPairs (q :: ps'') ++ ['}'])) = none := by
        apply matchAt_eq_none
        obtain ⟨u, hu⟩ := joinPairs_head q ps''
        rw [List.dropWhile_cons, if_pos (by decide), hu, List.cons_append,
            List.dropWhile_cons, if_neg (by decide)]
        simp
      rw [subFix_nomatch hone, ih hps]
      simp [joinPairsFix, renderPairFix]

/-- Stage B over the whole render. -/
theorem subFix_renderObj (ps : List (List Char × List Char))
    (hg : ps.all goodPair = true) :
    subFix (renderObj ps) = '{' :: (joinPairsFix ps ++ ['}']) := by
  have hm : matchAt ('{' :: (joinPairs ps ++ ['}'])) = none := by
    apply matchAt_eq_none
    rw [List.dropWhile_cons, if_neg (by decide)]
    simp
  rw [renderObj, List.cons_append, subFix_nomatch hm, subFix_join ps hg]

/-! ### Strict decoding of a repaired render -/

theorem parseStr_quote {r : List Char} : parseStr ('"' :: r) = .ok ([], r) := rfl

theorem parseStr_cons_plain {c : Char} {r : List Char} (h2 : c ≠ '"') (h3 : c ≠ '\\')
    (h4 : ¬ c.toNat < 0x20) :
    parseStr (c :: r) = (parseStr r).map (fun q => (c :: q.1, q.2)) := by
  show parseStrF (r.length + 1) (c :: r) = _
  rw [parseStrF.eq_def]
  simp only []
  rw [if_neg h2, if_neg h3, if_neg h4]
  rfl

theorem parseStr_escape_n {r : List Char} :
    parseStr ('\\' :: 'n' :: r) = (parseStr r).map (fun q => ('\n' :: q.1, q.2)) := by
  show (parseStrF (r.length + 1) r).map (fun q => ('\n' :: q.1, q.2)) = _
  rw [parseStrF_congr (r.length + 1) r (by omega)]

theorem parseStr_append : ∀ {s r : List Char},
    (∀ c ∈ s, 0x20 ≤ c.toNat ∧ c ≠ '"' ∧ c ≠ '\\') →
    parseStr (s ++ '"' :: r) = .ok (s, r) := by
  intro s
  induction s with
  | nil => intro r _; exact parseStr_quote
  | cons c s' ih =>
    intro r hs
    obtain ⟨h1, h2, h3⟩ := hs c (by simp)
    have h4 : ¬ c.toNat < 0x20 := by omega
    rw [List.cons_append, parseStr_cons_plain h2 h3 h4,
        ih (fun x hx => hs x (by simp [hx]))]
    rfl

theorem parseStr_fix : ∀ {v r : List Char}, v.all goodValChar = true →
    parseStr (fixContent v ++ '"' :: r) = .ok (stripCR v, r) := by
  intro v
  induction v with
  | nil =>
    intro r _
    simpa [fixContent, stripCR] using parseStr_quote (r := r)
  | cons c v' ih =>
    intro r hv
    rw [List.all_cons, Bool.and_eq_true] at hv
    obtain ⟨hc, hv'⟩ := hv
    by_cases hn : c = '\n'
    · subst hn
      rw [fixContent, if_pos rfl, List.cons_append, List.cons_append,
          parseStr_escape_n, ih hv']
      simp [stripCR, Except.map]
    · by_cases hr : c = '\r'
      · subst hr
        rw [fixContent, if_neg (by decide), if_pos rfl, ih hv']
        simp [stripCR]
      · have hplain : 0x20 ≤ c.toNat ∧ c ≠ '"' ∧ c ≠ '\\' := by
          rw [goodValChar] at hc
          simp only [Bool.or_eq_true, Bool.and_eq_true, decide_eq_true_eq] at hc
          rcases hc with (h3 | h4) | h2
          · exact absurd h3 hn
          · exact absurd h4 hr
          · exact ⟨h2.1.1, h2.1.2, h2.2⟩
        rw [fixContent, if_neg hn, if_neg hr, List.cons_append,
            parseStr_cons_plain hplain.2.1 hplain.2.2 (by omega), ih hv']
        simp [stripCR, List.filter_cons, hr, Except.map]

theorem objInsert_of_not_mem {kvs : List (List Char × JVal)} {k v}
    (h : ∀ p ∈ kvs, p.1 ≠ k) : objInsert kvs k v = kvs ++ [(k, v)] := by
  induction kvs with
  | nil => rfl
  | cons q t ih =>
    rw [objInsert, if_neg (h q (by simp)), ih (fun p hp => h p (by simp [hp]))]
    rfl

theorem joinPairsFix_head (p : List Char × List Char)
    (ps : List (List Char × List Char)) :
    ∃ u, joinPairsFix (p :: ps) = '"' :: u := by
  cases ps with
  | nil =>
    exact ⟨p.1 ++ '"' :: ':' :: ' ' :: '"' :: (fixContent p.2 ++ ['"']),
      by simp [joinPairsFix, renderPairFix]⟩
  | cons q ps' =>
    exact ⟨p.1 ++ '"' :: ':' :: ' ' :: '"' ::
        (fixContent p.2 ++ '"' :: ',' :: ' ' :: joinPairsFix (q :: ps')),
      by simp [joinPairsFix, renderPairFix]⟩

theorem parseVal_quote {f : ℕ} {X : List Char} :
    parseVal (f + 1) ('"' :: X) = (parseStr X).map (fun r => (.str r.1, r.2)) := rfl

theorem parseMembers_step {f : ℕ} {t : List Char} {acc : List (List Char × JVal)} :
    parseMembers (f + 1) ('"' :: t) acc =
      (match parseStr t with
       | .error e => .error e
       | .ok (k, r1) =>
         (match skipJWs r1 with
          | ':' :: r3 =>
            (match parseVal f (skipJWs r3) with
             | .error e => .error e
             | .ok (v, r4) =>
               (match skipJWs r4 with
                | ',' :: r6 => parseMembers f (skipJWs r6) (objInsert acc k v)
                | '}' :: r6 => .ok (.obj (objInsert acc k v), r6)
                | _ => .error .jsonDecodeError))
          | _ => .error .jsonDecodeError)) := rfl

/-- One successful member step of the object loop. -/
theorem parseMembers_run {f : ℕ} {t r1 r3 r4 : List Char} {acc : List (List Char × JVal)}
    {k : List Char} {jv : JVal}
    (hstr : parseStr t = .ok (k, r1))
    (hskip : skipJWs r1 = ':' :: r3)
    (hval : parseVal f (skipJWs r3) = .ok (jv, r4)) :
    parseMembers (f + 1) ('"' :: t) acc =
      (match skipJWs r4 with
       | ',' :: r6 => parseMembers f (skipJWs r6) (objInsert acc k jv)
       | '}' :: r6 => .ok (.obj (objInsert acc k jv), r6)
       | _ => .error .jsonDecodeError) := by
  simp only [parseMembers_step, hstr, hskip, hval]

theorem parseMembers_render :
    ∀ (ps : List (List Char × List Char)) (f : ℕ) (acc : List (List Char × JVal)),
    ps ≠ [] → ps.all goodPair = true → (ps.map Prod.fst).Nodup →
    (∀ x ∈ ps.map Prod.fst, ∀ p ∈ acc, p.1 ≠ x) →
    ps.length < f →
    parseMembers f (joinPairsFix ps ++ ['}']) acc =
      .ok (.obj (acc ++ ps.map pairVal), []) := by
  intro ps
  induction ps with
  | nil => intro f acc hne; exact absurd rfl hne
  | cons p ps' ih =>
    intro f acc _ hg hnd hdisj hf
    obtain ⟨k, v⟩ := p
    rw [List.all_cons, Bool.and_eq_true] at hg
    obtain ⟨hpg, hps⟩ := hg
    rw [goodPair, Bool.and_eq_true] at hpg
    obtain ⟨hkall, hvall⟩ := hpg
    have hkchars : ∀ c ∈ k, 0x20 ≤ c.toNat ∧ c ≠ '"' ∧ c ≠ '\\' := by
      intro c hcin
      have hgc := List.all_eq_true.1 hkall c hcin
      rw [goodKeyChar, Bool.and_eq_true, Bool.and_eq_true, Bool.and_eq_true] at hgc
      obtain ⟨⟨⟨hle, _⟩, hq⟩, hb⟩ := hgc
      exact ⟨by simpa using hle, by simpa using hq, by simpa using hb⟩
    obtain ⟨f1, rfl⟩ : ∃ f1, f = f1 + 1 := ⟨f - 1, by omega⟩
    have hacc : objInsert acc k (.str (stripCR v)) = acc ++ [(k, .str (stripCR v))] :=
      objInsert_of_not_mem (fun p hp => hdisj k (by simp) p hp)
    have hf1 : ps'.length < f1 := by simpa using hf
    obtain ⟨f2, rfl⟩ : ∃ f2, f1 = f2 + 1 := ⟨f1 - 1, by omega⟩
    cases ps' with
    | nil =>
      have e : joinPairsFix [(k, v)] ++ ['}'] =
          '"' :: (k ++ '"' :: (':' :: ' ' :: '"' :: (fixContent v ++ '"' :: '}' :: []))) := by
        simp [joinPairsFix, renderPairFix]
      rw [e]
      have hskipA : skipJWs (':' :: ' ' :: '"' :: (fixContent v ++ '"' :: '}' :: [])) =
          ':' :: (' ' :: '"' :: (fixContent v ++ '"' :: '}' :: [])) := by
        simp [skipJWs, List.dropWhile_cons, isJWs]
      have hval : parseVal (f2 + 1)
          (skipJWs (' ' :: '"' :: (fixContent v ++ '"' :: '}' :: []))) =
          .ok (.str (stripCR v), '}' :: []) := by
        have hs : skipJWs (' ' :: '"' :: (fixContent v ++ '"' :: '}' :: [])) =
            '"' :: (fixContent v ++ '"' :: '}' :: []) := by
          simp [skipJWs, List.dropWhile_cons, isJWs]
        rw [hs, parseVal_quote, parseStr_fix hvall]
        rfl
      rw [parseMembers_run (parseStr_append hkchars) hskipA hval]
      simp only [show skipJWs ('}' :: []) = '}' :: [] from by
        simp [skipJWs, List.dropWhile_cons, isJWs]]
      rw [hacc]
      simp [pairVal]
    | cons q ps2 =>
      have e : joinPairsFix ((k, v) :: q :: ps2) ++ ['}'] =
          '"' :: (k ++ '"' :: (':' :: ' ' :: '"' ::
            (fixContent v ++ '"' :: ',' :: (' ' :: (joinPairsFix (q :: ps2) ++ ['}']))))) := by
        simp [joinPairsFix, renderPairFix]
      rw [e]
      have hskipA : skipJWs (':' :: ' ' :: '"' ::
          (fixContent v ++ '"' :: ',' :: (' ' :: (joinPairsFix (q :: ps2) ++ ['}'])))) =
          ':' :: (' ' :: '"' ::
            (fixContent v ++ '"' :: ',' :: (' ' :: (joinPairsFix (q :: ps2) ++ ['}'])))) := by
        simp [skipJWs, List.dropWhile_cons, isJWs]
      have hval : parseVal (f2 + 1)
          (skipJWs (' ' :: '"' ::
            (fixContent v ++ '"' :: ',' :: (' ' :: (joinPairsFix (q :: ps2) ++ ['}']))))) =
          .ok (.str (stripCR v), ',' :: (' ' :: (joinPairsFix (q :: ps2) ++ ['}']))) := by
        have hs : skipJWs (' ' :: '"' ::
            (fixContent v ++ '"' :: ',' :: (' ' :: (joinPairsFix (q :: ps2) ++ ['}'])))) =
            '"' :: (fixContent v ++ '"' :: ',' :: (' ' :: (joinPairsFix (q :: ps2) ++ ['}']))) := by
          simp [skipJWs, List.dropWhile_cons, isJWs]
        rw [hs, parseVal_quote, parseStr_fix hvall]
        rfl
      rw [parseMembers_run (parseStr_append hkchars) hskipA hval]
      simp only [show skipJWs (',' :: (' ' :: (joinPairsFix (q :: ps2) ++ ['}']))) =
          ',' :: (' ' :: (joinPairsFix (q :: ps2) ++ ['}'])) from by
        simp [skipJWs, List.dropWhile_cons, isJWs]]
      obtain ⟨u, hu⟩ := joinPairsFix_head q ps2
      have hskip4 : skipJWs (' ' :: (joinPairsFix (q :: ps2) ++ ['}'])) =
          joinPairsFix (q :: ps2) ++ ['}'] := by
        rw [skipJWs, List.dropWhile_cons, if_pos (by decide), hu, List.cons_append,
            List.dropWhile_cons, if_neg (by decide)]
      rw [hskip4, hacc]
      have hfin := ih (f2 + 1) (acc ++ [(k, JVal.str (stripCR v))]) (by simp) hps
        (by simpa using (List.nodup_cons.1 hnd).2)
        (by
          intro x hx p hp
          rcases List.mem_append.1 hp with hp | hp
          · exact hdisj x (by rw [List.map_cons]; exact List.mem_cons_of_mem _ hx) p hp
          · rcases List.mem_singleton.1 hp with rfl
            have hkx : k ≠ x := by
              intro hkx
              exact absurd (hkx ▸ hx) (by simpa using (List.nodup_cons.1 hnd).1)
            simpa using hkx)
        hf1
      rw [hfin]
      simp [pairVal]

/-! ### `pystrip` facts -/

theorem dropWhile_eq_self_of_head {p : Char → Bool} {l : List Char}
    (h : ∀ c, l.head? = some c → p c = false) : l.dropWhile p = l := by
  cases l with
  | nil => rfl
  | cons c cs =>
    have := h c rfl
    simp [List.dropWhile, this]

theorem pystrip_noop {l : List Char}
    (h1 : ∀ c, l.head? = some c → isPWs c = false)
    (h2 : ∀ c, l.getLast? = some c → isPWs c = false) : pystrip l = l := by
  unfold pystrip
  rw [dropWhile_eq_self_of_head h1]
  rw [dropWhile_eq_self_of_head (by
    intro c hc
    exact h2 c (by rwa [← List.head?_reverse]))]
  exact List.reverse_reverse l

theorem mem_pystrip {c : Char} {l : List Char} (h : c ∈ pystrip l) : c ∈ l := by
  unfold pystrip at h
  rw [List.mem_reverse] at h
  have h2 := List.dropWhile_sublist (l := (l.dropWhile isPWs).reverse) (p := isPWs)
  have h3 := h2.mem h
  rw [List.mem_reverse] at h3
  exact (List.dropWhile_sublist (l := l) (p := isPWs)).mem h3

theorem noNLCR_pystrip {l : List Char} (h : noNLCR l = true) :
    noNLCR (pystrip l) = true := by
  rw [noNLCR_iff]
  intro c hc
  exact (noNLCR_iff.1 h) c (mem_pystrip hc)

/-! ## The claims -/

theorem contains_iff {l : List String} {x : String} :
    l.contains x = true ↔ x ∈ l := by
  induction l with
  | nil => simp [List.contains]
  | cons a t ih =>
    simp only [List.contains] at ih ⊢
    rw [List.elem_cons]
    constructor
    · intro h
      split at h
      · next heq => exact (beq_iff_eq.1 heq) ▸ List.mem_cons_self a t
      · exact List.mem_cons_of_mem a (ih.1 h)
    · intro h
      rcases List.mem_cons.1 h with h | h
      · rw [h]; simp
      · split
        · rfl
        · exact ih.2 h

/-- C8: for every database state and recording id, after
`DELETE FROM recording` runs under the schema's `ON DELETE CASCADE`
declarations, no keyframe, analysis, event, finding or metadata row that
was reachable from the deleted recording through the foreign keys
remains. -/
theorem C8_delete_recording_cascades (st : SchemaState) (rid : String) :
    (∀ k ∈ (deleteRecording rid st).keyframes, ¬ kfRowReach rid k) ∧
    (∀ a ∈ (deleteRecording rid st).analyses, ¬ anRowReach st rid a) ∧
    (∀ e ∈ (deleteRecording rid st).events, ¬ childRowReach st rid e) ∧
    (∀ f ∈ (deleteRecording rid st).findings, ¬ childRowReach st rid f) ∧
    (∀ m ∈ (deleteRecording rid st).metadataRows, ¬ childRowReach st rid m) := by
  have hdelan : ∀ a : String × Option String, anRowReach st rid a →
      (match a.2 with
       | some kid =>
         ((st.keyframes.filter (fun k => k.2 = rid)).map (fun k => k.1)).contains kid
       | none => false) = true := by
    intro a hreach
    obtain ⟨kid, hkid, k, hkmem, hk1, hk2⟩ := hreach
    rw [hkid]
    exact contains_iff.2 (List.mem_map.2
      ⟨k, List.mem_filter.2 ⟨hkmem, by simp [hk2]⟩, hk1⟩)
  have hkf : ∀ k ∈ (deleteRecording rid st).keyframes, ¬ kfRowReach rid k := by
    intro k hk
    rw [deleteRecording] at hk
    simp only [List.mem_filter] at hk
    simpa [kfRowReach] using hk.2
  have han : ∀ a ∈ (deleteRecording rid st).analyses, ¬ anRowReach st rid a := by
    intro a ha hreach
    rw [deleteRecording] at ha
    simp only [List.mem_filter] at ha
    have ha2 := ha.2
    rw [decide_eq_true_eq] at ha2
    exact ha2 (hdelan a hreach)
  refine ⟨hkf, han, ?_, ?_, ?_⟩ <;>
  · intro c hc hreach
    rw [deleteRecording] at hc
    simp only [List.mem_filter] at hc
    have hc2 := hc.2
    rw [decide_eq_true_eq] at hc2
    apply hc2
    obtain ⟨a, hamem, ha1, hareach⟩ := hreach
    exact contains_iff.2 (List.mem_map.2
      ⟨a, List.mem_filter.2 ⟨hamem, by simpa using hdelan a hareach⟩, ha1⟩)

/-- A concrete six-table state exercising the cascade: one keyframe and
analysis chain under recording `r1`, one under `r2`. -/
def stW : SchemaState :=
  { recordings := ["r1", "r2"]
    keyframes := [("k1", "r1"), ("k2", "r2")]
    analyses := [("a1", some "k1"), ("a2", some "k2"), ("a3", none)]
    events := [("e1", "a1"), ("e2", "a2")]
    findings := [("f1", "a1")]
    metadataRows := [("m1", "a1"), ("m2", "a2")] }

theorem C8_delete_recording_cascades_witness :
    ¬ anRowReach stW "r1" ("a2", some "k2") ∧ ¬ childRowReach stW "r1" ("e2", "a2") :=
  ⟨(C8_delete_recording_cascades stW "r1").2.1 ("a2", some "k2") (by decide),
   (C8_delete_recording_cascades stW "r1").2.2.1 ("e2", "a2") (by decide)⟩

/-- C9: if every relational insert of `save_ai_analysis_result` succeeds
but the legacy mirror's file write fails, the call still returns `True`
(the saved rows record that the legacy JSON file was not written). -/
theorem C9_mirror_failure_does_not_fail_save (env : SaveEnv) (result : JVal)
    (rows : SavedRows) (h : saveInserts env result = .ok rows)
    (hm : env.mirrorFileWriteOk = false) :
    (saveAiAnalysisResult env result).1 = true ∧
    ∃ r, (saveAiAnalysisResult env result).2 = some r ∧
      r.legacyRecordAdded = true ∧ r.legacyFileWritten = false := by
  rw [saveAiAnalysisResult, h]
  exact ⟨rfl, addAnalysisMirror env rows, rfl, rfl, by rw [addAnalysisMirror, hm]⟩

/-- The environment for the success-path witnesses: every insert succeeds,
only the legacy mirror's file write fails. -/
def envW : SaveEnv :=
  { keyframeIds := ["kf1"], analysisInsertOk := true,
    eventInsertOk := fun _ => true, findingInsertOk := fun _ => true,
    metaInsertOk := fun _ => true, mirrorFileWriteOk := false }

/-- A small but fully populated model response for the witnesses. -/
def resultW : JVal :=
  .obj [(kSummary, .str "a summary of ten+ chars".toList),
        (kMetadata, .arr [
          .obj [(kKey, .str "duration".toList), (kValue, .float (.finite 3))],
          .obj [(kKey, .str "note".toList), (kValue, .null)],
          .obj [(kKey, .str "plain".toList), (kValue, .str "text".toList)]])]

theorem C9_mirror_failure_does_not_fail_save_witness :
    (saveAiAnalysisResult envW resultW).1 = true ∧
    ∃ r, (saveAiAnalysisResult envW resultW).2 = some r ∧
      r.legacyRecordAdded = true ∧ r.legacyFileWritten = false :=
  C9_mirror_failure_does_not_fail_save envW resultW
    { analysesInserted := 1, events := [], findings := [],
      metadataRows := [
        { key := .str "duration".toList, value := "3.0".toList,
          data_type := .str "string".toList },
        { key := .str "note".toList, value := "None".toList,
          data_type := .str "string".toList },
        { key := .str "plain".toList, value := "text".toList,
          data_type := .str "string".toList }],
      legacyRecordAdded := false, legacyFileWritten := false }
    (by with_unfolding_all rfl) rfl

theorem mkMetaRow_value {m : JVal} {row : MetaRow} (h : mkMetaRow m = .ok row) :
    ∃ kvs, m = .obj kvs ∧
      row.value = pyStr ((objLookup kvs kValue).getD (.str [])) := by
  cases m with
  | obj kvs =>
    refine ⟨kvs, rfl, ?_⟩
    rw [mkMetaRow] at h
    simp only [jGet, bind, Except.bind, pure, Except.pure] at h
    injection h with h
    rw [← h]
  | null => simp [mkMetaRow, jGet, bind, Except.bind] at h
  | bool b => simp [mkMetaRow, jGet, bind, Except.bind] at h
  | int n => simp [mkMetaRow, jGet, bind, Except.bind] at h
  | float f => simp [mkMetaRow, jGet, bind, Except.bind] at h
  | str s => simp [mkMetaRow, jGet, bind, Except.bind] at h
  | arr xs => simp [mkMetaRow, jGet, bind, Except.bind] at h

theorem insertMetas_values (env : SaveEnv) :
    ∀ (ms : List JVal) (i : ℕ) (rows : List MetaRow),
    insertMetas env i ms = .ok rows →
    rows.length = ms.length ∧
    ∀ j (hj : j < ms.length) (hj' : j < rows.length),
      ∃ kvs, ms.get ⟨j, hj⟩ = .obj kvs ∧
        (rows.get ⟨j, hj'⟩).value = pyStr ((objLookup kvs kValue).getD (.str []))
  | [], i, rows, h => by
    rw [insertMetas] at h
    injection h with h
    subst h
    exact ⟨rfl, fun j hj _ => absurd hj (by simp)⟩
  | m :: t, i, rows, h => by
    rw [insertMetas] at h
    split at h
    · exact absurd h (by simp)
    next row hmk =>
      split at h
      · rcases hrec : insertMetas env (i + 1) t with ex | rs
        · rw [hrec] at h; exact absurd h (by simp [Except.map])
        · rw [hrec] at h
          simp only [Except.map] at h
          injection h with h
          subst h
          obtain ⟨hlen, hidx⟩ := insertMetas_values env t (i + 1) rs hrec
          refine ⟨by simp [hlen], ?_⟩
          intro j hj hj'
          match j with
          | 0 => exact mkMetaRow_value hmk
          | j + 1 =>
            exact hidx j (by simpa using hj) (by simpa using hj')
      · exact absurd h (by simp)

/-- C10: on every successful `save_ai_analysis_result` call, the
`analysis_metadata` rows correspond one-to-one with the input's
`analysis_metadata` entries, and each row's stored value is the Python
`str(...)` rendering of the entry's `value` (defaulting to the empty
string), so numbers and nulls are persisted as strings. -/
theorem C10_metadata_values_stringified (env : SaveEnv) (result : JVal)
    (rows : SavedRows) (h : saveAiAnalysisResult env result = (true, some rows)) :
    ∃ (mv : JVal) (ms : List JVal), jGet result kMetadata (.arr []) = .ok mv ∧
      jIter mv = .ok ms ∧
      rows.metadataRows.length = ms.length ∧
      ∀ j (hj : j < ms.length) (hj' : j < rows.metadataRows.length),
        ∃ kvs, ms.get ⟨j, hj⟩ = .obj kvs ∧
          (rows.metadataRows.get ⟨j, hj'⟩).value =
            pyStr ((objLookup kvs kValue).getD (.str [])) := by
  rw [saveAiAnalysisResult] at h
  rcases hsi : saveInserts env result with ex | rows0
  · rw [hsi] at h; exact absurd h (by simp)
  rw [hsi] at h
  injection h with h1 h2
  injection h2 with h2
  rw [saveInserts] at hsi
  simp only [bind, Except.bind] at hsi
  split at hsi
  · exact absurd hsi (by simp)
  split at hsi
  · exact absurd hsi (by simp)
  split at hsi
  · exact absurd hsi (by simp)
  split at hsi
  · exact absurd hsi (by simp)
  split at hsi
  · exact absurd hsi (by simp)
  split at hsi
  · exact absurd hsi (by simp)
  split at hsi
  · exact absurd hsi (by simp)
  split at hsi
  · exact absurd hsi (by simp)
  split at hsi
  · exact absurd hsi (by simp)
  split at hsi
  · exact absurd hsi (by simp)
  split at hsi
  · exact absurd hsi (by simp)
  split at hsi
  · exact absurd hsi (by simp)
  next mv hmv =>
  split at hsi
  · exact absurd hsi (by simp)
  next ms hms =>
  split at hsi
  · exact absurd hsi (by simp)
  next metaRows hmetas =>
  simp only [pure, Except.pure] at hsi
  injection hsi with hsi
  refine ⟨mv, ms, hmv, hms, ?_⟩
  have hmr : rows.metadataRows = metaRows := by
    rw [← h2, addAnalysisMirror, ← hsi]
  rw [hmr]
  obtain ⟨hlen, hidx⟩ := insertMetas_values env ms 0 metaRows hmetas
  exact ⟨hlen, hidx⟩

theorem C10_metadata_values_stringified_witness :
    ∃ (mv : JVal) (ms : List JVal), jGet resultW kMetadata (.arr []) = .ok mv ∧
      jIter mv = .ok ms ∧
      (addAnalysisMirror envW
        { analysesInserted := 1, events := [], findings := [],
          metadataRows := [
            { key := .str "duration".toList, value := "3.0".toList,
              data_type := .str "string".toList },
            { key := .str "note".toList, value := "None".toList,
              data_type := .str "string".toList },
            { key := .str "plain".toList, value := "text".toList,
              data_type := .str "string".toList }],
          legacyRecordAdded := false,
          legacyFileWritten := false }).metadataRows.length = ms.length :=
  match C10_metadata_values_stringified envW resultW
    (addAnalysisMirror envW
      { analysesInserted := 1, events := [], findings := [],
        metadataRows := [
          { key := .str "duration".toList, value := "3.0".toList,
            data_type := .str "string".toList },
          { key := .str "note".toList, value := "None".toList,
            data_type := .str "string".toList },
          { key := .str "plain".toList, value := "text".toList,
            data_type := .str "string".toList }],
        legacyRecordAdded := false,
        legacyFileWritten := false })
    (by with_unfolding_all rfl) with
  | ⟨mv, ms, h1, h2, h3, _⟩ => ⟨mv, ms, h1, h2, h3⟩

/-- A response whose only finding carries `confidence_score` equal to the
401-digit integer `10 ^ 400` (fine as JSON and as a Python int, too large
for a double). -/
def c4Input : List Char :=
  "\x7b\"key_findings\": [\x7b\"confidence_score\": 1".toList ++
    List.replicate 400 '0' ++ "\x7d]\x7d".toList

set_option maxRecDepth 8192 in
/-- C4: the sanitizer does not always produce a clamped
`confidence_score` — on a finding whose `confidence_score` is an integer
of magnitude `≥ 2 ^ 1024`, the `float` cast raises `OverflowError`, which
the `except (ValueError, TypeError)` handler does not catch, so `parse`
raises instead of clamping or defaulting to 80. -/
theorem C4_confidence_overflow_escapes :
    parse c4Input = .error .overflowError := by
  with_unfolding_all rfl

/-- A response whose only finding carries `confidence_score: 1e400`,
which strict JSON decoding turns into the float `inf`. -/
def c6Input : List Char :=
  "\x7b\"key_findings\": [\x7b\"confidence_score\": 1e400\x7d]\x7d".toList

set_option maxRecDepth 8192 in
/-- C6: `parse` is not total — on this plain string input the sanitizer's
`int(float(value))` coercion receives `inf` and raises `OverflowError`,
which no handler in `parse` catches, contradicting the claim that `parse`
always returns `None` or a dict on arbitrary input. -/
theorem C6_parse_raises_on_overflow :
    parse c6Input = .error .overflowError := by
  with_unfolding_all rfl

theorem objLookup_mem {kvs : List (List Char × JVal)} {k : List Char} {v : JVal}
    (h : objLookup kvs k = some v) : (k, v) ∈ kvs := by
  induction kvs with
  | nil => exact absurd h (by simp [objLookup])
  | cons p t ih =>
    obtain ⟨k', v'⟩ := p
    rw [objLookup] at h
    split at h
    · next heq =>
      injection h with h
      rw [← heq, ← h]
      exact List.mem_cons_self _ _
    · exact List.mem_cons_of_mem _ (ih h)

/-- C5: when the decoded-and-sanitized response is an object whose
`summary_md` is a string shorter than 10 characters, `parse` returns
`None` — the `minLength: 10` constraint fails schema validation no matter
what the other fields hold. -/
theorem C5_short_summary_rejected (t : List Char) (d d2 : JVal)
    (kvs : List (List Char × JVal)) (s : List Char)
    (hd : decodeStage (preprocessResponse t) = some d)
    (hs : sanitizeData d = .ok d2)
    (hobj : d2 = .obj kvs)
    (hsum : objLookup kvs kSummary = some (.str s))
    (hlen : s.length < 10) :
    parse t = .ok none := by
  have hfalse : validateTop d2 = false := by
    rw [hobj, validateTop]
    have hall : kvs.all (fun p => propOkTop p.1 p.2) = false := by
      rw [List.all_eq_false]
      refine ⟨(kSummary, .str s), objLookup_mem hsum, ?_⟩
      simp only [propOkTop, if_true, if_neg (show ¬ kSummary = kVideoMd by decide),
        if_neg (show ¬ kSummary = kAudioMd by decide), if_pos (show kSummary = kSummary from rfl)]
      simp only [decide_eq_true_eq]
      omega
    rw [hall]
    simp
  simp only [parse, parseFrom, hd, hs]
  rw [hfalse]
  simp

/-- The generic markdown heading and the short summary for the C5
witness. -/
def c5Kvs : List (List Char × JVal) :=
  [(kVideoMd, .str "# Report".toList), (kSummary, .str "short".toList),
   (kFindings, .arr []), (kEvents, .arr [])]

def c5Text : List Char :=
  ("\x7b\"video_analysis_md\": \"# Report\", \"summary_md\": \"short\", " ++
   "\"key_findings\": [], \"timestamp_events\": []\x7d").toList

theorem C5_short_summary_rejected_witness : parse c5Text = .ok none :=
  C5_short_summary_rejected c5Text (.obj c5Kvs) (.obj c5Kvs) c5Kvs
    "short".toList (by with_unfolding_all rfl) (by with_unfolding_all rfl)
    rfl (by rfl) (by decide)

/-- The `category` values the schema's description enumerates. -/
def knownCategories : List (List Char) :=
  ["technical".toList, "action".toList, "visual".toList]

/-- The `event_type` values the schema's description enumerates. -/
def knownEventTypes : List (List Char) :=
  ["technical".toList, "action".toList, "visual".toList, "highlight".toList]

/-- C7: an input that decodes, sanitizes and validates is accepted and
returned as-is even when a finding's `category` and an event's
`event_type` lie outside the known enumerations — the schema constrains
them only to be strings, so unknown values pass through. -/
theorem C7_unknown_enum_accepted (t : List Char) (d d2 : JVal)
    (kvs : List (List Char × JVal))
    (hd : decodeStage (preprocessResponse t) = some d)
    (hs : sanitizeData d = .ok d2)
    (hobj : d2 = .obj kvs)
    (hval : validateTop d2 = true)
    (hcat : ∃ (fs : List JVal), objLookup kvs kFindings = some (.arr fs) ∧
      ∃ f ∈ fs, ∃ (fkvs : List (List Char × JVal)) (cat : List Char),
        f = .obj fkvs ∧ objLookup fkvs kCategory = some (.str cat) ∧
        cat ∉ knownCategories)
    (hev : ∃ (es : List JVal), objLookup kvs kEvents = some (.arr es) ∧
      ∃ e ∈ es, ∃ (ekvs : List (List Char × JVal)) (et : List Char),
        e = .obj ekvs ∧ objLookup ekvs kEventType = some (.str et) ∧
        et ∉ knownEventTypes) :
    parse t = .ok (some d2) := by
  simp only [parse, parseFrom, hd, hs]
  rw [hval]
  simp

/-- The C7 witness finding: `category` is `"banana"`, outside the known
set. -/
def c7FKvs : List (List Char × JVal) :=
  [(kCategory, .str "banana".toList), (kTitle, .str "T".toList),
   (kContent, .str "C".toList), (kConfidence, .int 90)]

/-- The C7 witness event after sanitization: `event_type` is `"party"`,
outside the known set; the integer timestamp has become a float. -/
def c7EvKvs : List (List Char × JVal) :=
  [(kTimestamp, .float (.finite 3)), (kEventType, .str "party".toList),
   (kTitle, .str "E".toList)]

/-- The C7 witness event as decoded, before sanitization. -/
def c7EvKvsD : List (List Char × JVal) :=
  [(kTimestamp, .int 3), (kEventType, .str "party".toList),
   (kTitle, .str "E".toList)]

def c7Kvs : List (List Char × JVal) :=
  [(kVideoMd, .str "# R".toList),
   (kSummary, .str "a summary of ten+ chars".toList),
   (kFindings, .arr [.obj c7FKvs]), (kEvents, .arr [.obj c7EvKvs])]

def c7KvsD : List (List Char × JVal) :=
  [(kVideoMd, .str "# R".toList),
   (kSummary, .str "a summary of ten+ chars".toList),
   (kFindings, .arr [.obj c7FKvs]), (kEvents, .arr [.obj c7EvKvsD])]

def c7Text : List Char :=
  ("\x7b\"video_analysis_md\": \"# R\", " ++
   "\"summary_md\": \"a summary of ten+ chars\", " ++
   "\"key_findings\": [\x7b\"category\": \"banana\", \"title\": \"T\", " ++
   "\"content\": \"C\", \"confidence_score\": 90\x7d], " ++
   "\"timestamp_events\": [\x7b\"timestamp_seconds\": 3, " ++
   "\"event_type\": \"party\", \"title\": \"E\"\x7d]\x7d").toList

set_option maxRecDepth 40000 in
theorem C7_unknown_enum_accepted_witness :
    parse c7Text = .ok (some (.obj c7Kvs)) :=
  C7_unknown_enum_accepted c7Text (.obj c7KvsD) (.obj c7Kvs) c7Kvs
    (by with_unfolding_all rfl) (by with_unfolding_all rfl) rfl
    (by with_unfolding_all decide)
    ⟨[.obj c7FKvs], rfl, .obj c7FKvs, by simp, c7FKvs, "banana".toList,
      rfl, rfl, by decide⟩
    ⟨[.obj c7EvKvs], rfl, .obj c7EvKvs, by simp, c7EvKvs, "party".toList,
      rfl, rfl, by decide⟩

/-- The Stage B pattern occurs here (value `a<newline>b` before `,`), yet
the surrounding text is not JSON, so the repaired text cannot strictly
parse. -/
def c1Bad : List Char :=
  'x' :: 'x' :: ' ' :: ':' :: ' ' :: '"' :: 'a' :: '\n' :: 'b' :: '"' ::
    ',' :: ' ' :: 'y' :: 'y' :: []

/-- C1 counterexample: an input containing an unescaped newline inside a
quoted value immediately followed by `",` for which the Stage B repair
pass still leaves text that strict JSON decoding rejects — the claim's
"for every input string" quantifier is too strong. -/
theorem C1_stage_b_not_always_strict :
    hasNLPattern c1Bad = true ∧
    ∃ e, jsonLoads (preprocessResponse c1Bad) = .error e := by
  refine ⟨by with_unfolding_all rfl, .jsonDecodeError, by with_unfolding_all rfl⟩

theorem renderPairFix_length_pos (p : List Char × List Char) :
    1 ≤ (renderPairFix p).length := by
  rw [renderPairFix]
  simp

theorem joinPairsFix_length : ∀ ps : List (List Char × List Char),
    ps.length ≤ (joinPairsFix ps).length
  | [] => le_refl 0
  | [p] => by
    rw [joinPairsFix]
    exact renderPairFix_length_pos p
  | p :: q :: ps2 => by
    have e : joinPairsFix (p :: q :: ps2) =
        renderPairFix p ++ ',' :: ' ' :: joinPairsFix (q :: ps2) := rfl
    rw [e, List.length_append]
    have h1 := renderPairFix_length_pos p
    have h2 := joinPairsFix_length (q :: ps2)
    simp only [List.length_cons] at h2 ⊢
    omega

theorem fenceAt_brace {r : List Char} : fenceAt ('{' :: r) = false := by
  cases r with
  | nil => rfl
  | cons b t =>
    cases t with
    | nil => rfl
    | cons c t2 =>
      rw [fenceAt]
      simp [btick, Char.ofNat]

theorem parseVal_obj {f : ℕ} {t : List Char} :
    parseVal (f + 1) ('{' :: t) =
      (match skipJWs t with
       | '}' :: t2 => .ok (.obj [], t2)
       | r => parseMembers f r []) := rfl

/-- C1 (amended): on a well-formed rendered object — any number of
`"key": "value"` pairs with distinct keys, where keys are printable
characters other than colon, quote and backslash (`goodKeyChar`: a
colon inside a key starts a spurious Stage B match) and values may
contain physical newlines and carriage returns but no quotes,
backslashes or other control characters (`goodValChar`) — the Stage B
repair yields text that strict decoding accepts, producing the object
with newlines escaped back and carriage returns stripped. -/
theorem C1_stage_b_repairs_rendered_objects
    (ps : List (List Char × List Char)) (hne : ps ≠ [])
    (hg : ps.all goodPair = true) (hnd : (ps.map Prod.fst).Nodup) :
    jsonLoads (preprocessResponse (renderObj ps)) =
      .ok (.obj (ps.map pairVal)) := by
  have hobj : renderObj ps = '{' :: (joinPairs ps ++ ['}']) := rfl
  have hnem : renderObj ps ≠ [] := by rw [hobj]; simp
  have hstrip : pystrip (renderObj ps) = renderObj ps := by
    apply pystrip_noop
    · intro c hc
      rw [hobj] at hc
      injection hc with hc
      rw [← hc]
      rfl
    · intro c hc
      rw [hobj, show '{' :: (joinPairs ps ++ ['}']) =
        ('{' :: joinPairs ps) ++ ['}'] from by simp,
        List.getLast?_concat] at hc
      injection hc with hc
      rw [← hc]
      rfl
  have hfence : fenceAt (renderObj ps) = false := by
    rw [hobj]; exact fenceAt_brace
  have hpre : preprocessResponse (renderObj ps) =
      '{' :: (joinPairsFix ps ++ ['}']) := by
    rw [preprocessResponse, if_neg hnem]
    simp only [hstrip, hfence, Bool.false_eq_true, if_false]
    exact subFix_renderObj ps hg
  rw [hpre]
  obtain ⟨p, ps', rfl⟩ : ∃ p ps', ps = p :: ps' := by
    cases ps with
    | nil => exact absurd rfl hne
    | cons p ps' => exact ⟨p, ps', rfl⟩
  obtain ⟨u, hu⟩ := joinPairsFix_head p ps'
  have hskipL : skipJWs ('{' :: (joinPairsFix (p :: ps') ++ ['}'])) =
      '{' :: (joinPairsFix (p :: ps') ++ ['}']) := by
    rw [skipJWs, List.dropWhile_cons, if_neg (by decide)]
  have hskipR : skipJWs (joinPairsFix (p :: ps') ++ ['}']) =
      joinPairsFix (p :: ps') ++ ['}'] := by
    rw [hu, skipJWs, List.cons_append, List.dropWhile_cons, if_neg (by decide)]
  rw [jsonLoads, hskipL]
  have hlen : ('{' :: (joinPairsFix (p :: ps') ++ ['}'])).length =
      (joinPairsFix (p :: ps')).length + 2 := by simp
  rw [hlen, parseVal_obj, hskipR]
  have harm : (match joinPairsFix (p :: ps') ++ ['}'] with
      | '}' :: t2 => (Except.ok (JVal.obj [], t2) : Except PyExc (JVal × List Char))
      | r => parseMembers ((joinPairsFix (p :: ps')).length + 2) r []) =
      parseMembers ((joinPairsFix (p :: ps')).length + 2)
        (joinPairsFix (p :: ps') ++ ['}']) [] := by
    rw [hu, List.cons_append]
    exact rfl
  rw [harm]
  have hrun := parseMembers_render (p :: ps') ((joinPairsFix (p :: ps')).length + 2)
    [] hne hg hnd (by intro x _ q hq; exact absurd hq (by simp))
    (by have := joinPairsFix_length (p :: ps'); omega)
  rw [hrun]
  simp [skipJWs]

/-- Two pairs whose values carry a physical newline and a carriage
return. -/
def c1Ps : List (List Char × List Char) :=
  [("key".toList, 'a' :: '\n' :: ['b']), ("k2".toList, 'x' :: '\r' :: ['y'])]

theorem C1_stage_b_repairs_rendered_objects_witness :
    jsonLoads (preprocessResponse (renderObj c1Ps)) =
      .ok (.obj (c1Ps.map pairVal)) :=
  C1_stage_b_repairs_rendered_objects c1Ps (by decide) (by decide) (by decide)

/-- A schema-valid response whose `video_analysis_md` value contains
`\x7d` followed by three backticks. -/
def c3Obj : List Char :=
  ("\x7b\"video_analysis_md\": \"x\x7d```\", \"summary_md\": \"0123456789\", " ++
   "\"key_findings\": [], \"timestamp_events\": []\x7d").toList

/-- `c3Obj` wrapped in a fenced ```` ```json ```` block. -/
def c3Wrapped : List Char := "```json\n".toList ++ c3Obj ++ "\n```".toList

def c3Kvs : List (List Char × JVal) :=
  [(kVideoMd, .str "x\x7d```".toList), (kSummary, .str "0123456789".toList),
   (kFindings, .arr []), (kEvents, .arr [])]

set_option maxRecDepth 60000 in
/-- C3 counterexample: wrapping this valid JSON object in a fence changes
the result — the lazy `(\x7b.*?\x7d)` body of the markdown pattern stops
at the `\x7d` inside the string value because three backticks follow it,
so the extracted block is truncated, fails to decode, and the wrapped
text parses to `None` while the unwrapped text parses to the full
object. -/
theorem C3_fence_wrap_changes_result :
    parse c3Obj = .ok (some (.obj c3Kvs)) ∧ parse c3Wrapped = .ok none :=
  ⟨by with_unfolding_all rfl, by with_unfolding_all rfl⟩

/-- The exact markdown wrapper of the amended claim: a ```` ```json ````
fence, the payload on its own line, a closing fence. -/
def fenceWrap (l : List Char) : List Char :=
  btick :: btick :: btick :: 'j' :: 's' :: 'o' :: 'n' :: '\n' ::
    (l ++ '\n' :: btick :: btick :: [btick])

theorem fenceAt_head_ne {c : Char} {r : List Char} (h : c ≠ btick) :
    fenceAt (c :: r) = false := by
  cases r with
  | nil => rfl
  | cons b t =>
    cases t with
    | nil => rfl
    | cons d t2 =>
      rw [fenceAt]
      simp [h]

theorem fenceFollows_no_btick : ∀ (u : List Char) (t : List Char),
    (∀ c ∈ u, c ≠ btick) → fenceFollows ('}' :: t) = false →
    fenceFollows (u ++ '}' :: t) = false
  | [], t, _, hT => hT
  | c :: u', t, hb, hT => by
    rw [List.cons_append, fenceFollows, List.dropWhile_cons]
    split
    · exact fenceFollows_no_btick u' t (fun x hx => hb x (by simp [hx])) hT
    · exact fenceAt_head_ne (hb c (by simp))

theorem fenceAt_brace_cons {t : List Char} : fenceFollows ('}' :: t) = false := by
  rw [fenceFollows, List.dropWhile_cons, if_neg (by decide)]
  exact fenceAt_head_ne (by decide)

theorem mdContent_exact : ∀ (mid : List Char) (T : List Char),
    (∀ c ∈ mid, c ≠ btick) → fenceFollows T = true →
    mdContent (mid ++ '}' :: T) = some mid
  | [], T, _, hT => by
    rw [List.nil_append, mdContent, hT]
    simp
  | c :: mid', T, hb, hT => by
    rw [List.cons_append, mdContent]
    by_cases hc : c = '}'
    · subst hc
      have hff : fenceFollows (mid' ++ '}' :: T) = false := by
        cases hmid : mid' with
        | nil =>
          rw [List.nil_append]
          rw [fenceFollows, List.dropWhile_cons, if_neg (by decide)]
          exact fenceAt_head_ne (by decide)
        | cons d md =>
          rw [← hmid]
          exact fenceFollows_no_btick mid' T
            (fun x hx => hb x (by simp [hx])) fenceAt_brace_cons
      rw [hff]
      rw [mdContent_exact mid' T (fun x hx => hb x (by simp [hx])) hT]
      simp
    · rw [if_neg (by simp [hc])]
      rw [mdContent_exact mid' T (fun x hx => hb x (by simp [hx])) hT]
      simp

theorem mdMatchFrom_fenceWrap (mid : List Char) (hb : ∀ c ∈ mid, c ≠ btick) :
    mdMatchFrom (fenceWrap ('{' :: (mid ++ ['}']))) =
      some ('{' :: (mid ++ ['}'])) := by
  have h1 : fenceWrap ('{' :: (mid ++ ['}'])) =
      btick :: btick :: btick :: 'j' :: 's' :: 'o' :: 'n' :: '\n' :: '{' ::
        (mid ++ '}' :: '\n' :: btick :: btick :: [btick]) := by
    simp [fenceWrap]
  rw [h1, mdMatchFrom]
  show (mdContent (mid ++ '}' :: ('\n' :: btick :: btick :: [btick]))).map
      (fun con => '{' :: (con ++ ['}'])) = some ('{' :: (mid ++ ['}']))
  rw [mdContent_exact mid ('\n' :: btick :: btick :: [btick]) hb (by rfl)]
  rfl

theorem mdSearch_fenceWrap (mid : List Char) (hb : ∀ c ∈ mid, c ≠ btick) :
    mdSearch (fenceWrap ('{' :: (mid ++ ['}']))) =
      some ('{' :: (mid ++ ['}'])) := by
  have hmf := mdMatchFrom_fenceWrap mid hb
  have h1 : fenceWrap ('{' :: (mid ++ ['}'])) =
      btick :: (btick :: btick :: 'j' :: 's' :: 'o' :: 'n' :: '\n' ::
        (('{' :: (mid ++ ['}'])) ++ '\n' :: btick :: btick :: [btick])) := rfl
  rw [h1] at hmf ⊢
  rw [mdSearch, hmf]

/-- C3 (amended): for a brace-delimited payload containing no backtick,
`parse` of the ```` ```json ```` fence-wrapped text equals `parse` of the
payload alone — both reduce to the same preprocessed text. -/
theorem C3_fence_wrap_parse_agrees (mid : List Char)
    (hb : ∀ c ∈ mid, c ≠ btick) :
    parse (fenceWrap ('{' :: (mid ++ ['}']))) =
      parse ('{' :: (mid ++ ['}'])) := by
  have hO : ('{' :: (mid ++ ['}']) : List Char) ≠ [] := by simp
  have hW : fenceWrap ('{' :: (mid ++ ['}'])) ≠ [] := by
    rw [fenceWrap]; simp
  have hstripO : pystrip ('{' :: (mid ++ ['}'])) = '{' :: (mid ++ ['}']) := by
    apply pystrip_noop
    · intro c hc
      injection hc with hc
      rw [← hc]; rfl
    · intro c hc
      rw [show ('{' :: (mid ++ ['}']) : List Char) = ('{' :: mid) ++ ['}'] from
        by simp, List.getLast?_concat] at hc
      injection hc with hc
      rw [← hc]; rfl
  have hstripW : pystrip (fenceWrap ('{' :: (mid ++ ['}']))) =
      fenceWrap ('{' :: (mid ++ ['}'])) := by
    apply pystrip_noop
    · intro c hc
      rw [fenceWrap] at hc
      injection hc with hc
      rw [← hc]; rfl
    · intro c hc
      rw [show fenceWrap ('{' :: (mid ++ ['}'])) =
        (btick :: btick :: btick :: 'j' :: 's' :: 'o' :: 'n' :: '\n' ::
          (('{' :: (mid ++ ['}'])) ++ '\n' :: btick :: [btick])) ++ [btick] from
        by simp [fenceWrap], List.getLast?_concat] at hc
      injection hc with hc
      rw [← hc]; rfl
  have hfenceW : fenceAt (fenceWrap ('{' :: (mid ++ ['}']))) = true := rfl
  have hfenceO : fenceAt ('{' :: (mid ++ ['}'])) = false :=
    fenceAt_head_ne (by decide)
  have hpreW : preprocessResponse (fenceWrap ('{' :: (mid ++ ['}']))) =
      subFix ('{' :: (mid ++ ['}'])) := by
    rw [preprocessResponse, if_neg hW]
    show subFix (if fenceAt (pystrip (fenceWrap ('{' :: (mid ++ ['}'])))) then
        match mdSearch (pystrip (fenceWrap ('{' :: (mid ++ ['}'])))) with
        | some g => pystrip g
        | none => pystrip (fenceWrap ('{' :: (mid ++ ['}'])))
      else pystrip (fenceWrap ('{' :: (mid ++ ['}'])))) =
      subFix ('{' :: (mid ++ ['}']))
    rw [hstripW, hfenceW, if_pos rfl, mdSearch_fenceWrap mid hb]
    exact congrArg subFix hstripO
  have hpreO : preprocessResponse ('{' :: (mid ++ ['}'])) =
      subFix ('{' :: (mid ++ ['}'])) := by
    rw [preprocessResponse, if_neg hO]
    show subFix (if fenceAt (pystrip ('{' :: (mid ++ ['}']))) then
        match mdSearch (pystrip ('{' :: (mid ++ ['}']))) with
        | some g => pystrip g
        | none => pystrip ('{' :: (mid ++ ['}']))
      else pystrip ('{' :: (mid ++ ['}']))) =
      subFix ('{' :: (mid ++ ['}']))
    rw [hstripO, hfenceO]
    simp
  rw [parse, parse, hpreW, hpreO]

theorem C3_fence_wrap_parse_agrees_witness :
    parse (fenceWrap ("\x7b\"a\": 1\x7d".toList)) =
      parse ("\x7b\"a\": 1\x7d".toList) := by
  have h := C3_fence_wrap_parse_agrees ("\"a\": 1".toList) (by decide)
  have e : ('{' :: ("\"a\": 1".toList ++ ['}'])) = "\x7b\"a\": 1\x7d".toList := by decide
  rw [e] at h
  exact h

theorem pyEq_refl : ∀ v : JVal, pyEq v v = true
  | .null => by simp [pyEq]
  | .bool b => by simp [pyEq]
  | .int n => by simp [pyEq]
  | .float f => by simp [pyEq]
  | .str s => by simp [pyEq]
  | .arr [] => by simp [pyEq]
  | .arr (x :: xs) => by
    simp only [pyEq, pyEq_refl x, pyEq_refl (.arr xs)]
    rfl
  | .obj [] => by simp [pyEq]
  | .obj ((k, v) :: t) => by
    simp only [pyEq, pyEq_refl v, pyEq_refl (.obj t)]
    simp

theorem objLookup_objInsert_self {k : List Char} {v : JVal} :
    ∀ kvs : List (List Char × JVal), objLookup (objInsert kvs k v) k = some v
  | [] => by simp [objInsert, objLookup]
  | (k', v') :: t => by
    rw [objInsert]
    by_cases h : k' = k
    · rw [if_pos h, objLookup, if_pos h]
    · rw [if_neg h, objLookup, if_neg h, objLookup_objInsert_self t]

theorem objLookup_objInsert_ne {k k' : List Char} {v : JVal} (hne : k' ≠ k) :
    ∀ kvs : List (List Char × JVal),
    objLookup (objInsert kvs k v) k' = objLookup kvs k'
  | [] => by simp [objInsert, objLookup, Ne.symm hne]
  | (k0, v0) :: t => by
    rw [objInsert]
    by_cases h : k0 = k
    · have hk0 : ¬ k0 = k' := fun hc => hne (show k' = k from hc ▸ h)
      rw [if_pos h, objLookup, objLookup, if_neg hk0, if_neg hk0]
    · rw [if_neg h, objLookup, objLookup, objLookup_objInsert_ne hne t]

theorem objInsert_all {P : List Char × JVal → Bool} {k : List Char} {v' : JVal} :
    ∀ {kvs : List (List Char × JVal)}, kvs.all P = true → P (k, v') = true →
    (objInsert kvs k v').all P = true
  | [], _, hv => by simpa [objInsert] using hv
  | (k0, v0) :: t, hall, hv => by
    rw [List.all_cons, Bool.and_eq_true] at hall
    rw [objInsert]
    by_cases h : k0 = k
    · rw [if_pos h, List.all_cons, Bool.and_eq_true]
      exact ⟨h ▸ hv, hall.2⟩
    · rw [if_neg h, List.all_cons, Bool.and_eq_true]
      exact ⟨hall.1, objInsert_all hall.2 hv⟩

theorem pyEq_obj_cons {k k' : List Char} {v v' : JVal} {a b} :
    pyEq (.obj ((k, v) :: a)) (.obj ((k', v') :: b)) =
      (decide (k = k') && pyEq v v' && pyEq (.obj a) (.obj b)) := by
  simp only [pyEq]

theorem pyEqObj_insert {k : List Char} {v v' : JVal}
    (hv : pyEq v' v = true) :
    ∀ {kvs : List (List Char × JVal)}, objLookup kvs k = some v →
    pyEq (.obj (objInsert kvs k v')) (.obj kvs) = true
  | [], h => by simp [objLookup] at h
  | (k0, v0) :: t, h => by
    rw [objLookup] at h
    rw [objInsert]
    split at h
    · next heq =>
      injection h with h
      rw [if_pos heq, pyEq_obj_cons, pyEq_refl (.obj t), h, hv]
      simp
    · next hne =>
      rw [if_neg hne, pyEq_obj_cons, pyEq_refl v0, pyEqObj_insert hv h]
      simp

theorem pyEqObj_insert2 {k1 k2 : List Char} {v1 v2 v1' v2' : JVal}
    (hk : k1 ≠ k2) (hv1 : pyEq v1' v1 = true) (hv2 : pyEq v2' v2 = true) :
    ∀ {kvs : List (List Char × JVal)},
    objLookup kvs k1 = some v1 → objLookup kvs k2 = some v2 →
    pyEq (.obj (objInsert (objInsert kvs k1 v1') k2 v2')) (.obj kvs) = true
  | [], h1, _ => by simp [objLookup] at h1
  | (k0, v0) :: t, h1, h2 => by
    rw [objLookup] at h1 h2
    rw [objInsert]
    by_cases hA : k0 = k1
    · rw [if_pos hA] at h1 ⊢
      injection h1 with h1
      rw [if_neg (fun hc => hk (hA ▸ hc : k1 = k2) : ¬ k0 = k2)] at h2
      rw [objInsert, if_neg (fun hc => hk (hA ▸ hc : k1 = k2) : ¬ k0 = k2)]
      rw [pyEq_obj_cons, h1, hv1, pyEqObj_insert hv2 h2]
      simp
    · rw [if_neg hA] at h1 ⊢
      by_cases hB : k0 = k2
      · rw [if_pos hB] at h2
        injection h2 with h2
        rw [objInsert, if_pos hB, pyEq_obj_cons, h2, hv2, pyEqObj_insert hv1 h1]
        simp
      · rw [if_neg hB] at h2
        rw [objInsert, if_neg hB, pyEq_obj_cons, pyEq_refl v0,
            pyEqObj_insert2 hk hv1 hv2 h1 h2]
        simp

theorem fBound_big : (100 : ℚ) < fBound := by
  rw [fBound_eq]
  norm_num

theorem fBound_pos : (0 : ℚ) < fBound :=
  lt_trans (by norm_num) fBound_big

theorem bitLenF_le : ∀ (f k a : ℕ), a < 2 ^ k → k ≤ f → bitLenF f a ≤ k
  | 0, k, a, _, hk => by
    rw [bitLenF]
    omega
  | f + 1, k, a, ha, hk => by
    rw [bitLenF]
    by_cases h0 : a = 0
    · rw [if_pos h0]
      omega
    · rw [if_neg h0]
      match k with
      | 0 => omega
      | k + 1 =>
        have hstep : a / 2 < 2 ^ k := by
          rw [pow_succ] at ha
          omega
        have := bitLenF_le f k (a / 2) hstep (by omega)
        omega

theorem pyRoundNat_small {a : ℕ} (h : a < 2 ^ 53) : pyRoundNat a = a := by
  rw [pyRoundNat,
    if_pos (show bitLen a ≤ 53 from bitLenF_le 2100 53 a h (by norm_num))]

/-- `float(int)` is exact below `2 ^ 53`, the range every claim's
coercions stay inside. -/
theorem pyFloatInt_exact {n : ℤ} (h : n.natAbs < 2 ^ 53) :
    pyFloatInt n = .ok (.finite (n : ℚ)) := by
  have hsmall : ¬ 2 ^ 1024 ≤ pyRoundNat n.natAbs := by
    rw [pyRoundNat_small h]
    have hle : (2 : ℕ) ^ 53 ≤ 2 ^ 1024 := Nat.pow_le_pow_right (by norm_num) (by norm_num)
    omega
  rw [pyFloatInt, if_neg hsmall, pyRoundNat_small h]
  by_cases hn : n < 0
  · rw [if_pos hn]
    have h1 : (n.natAbs : ℤ) = -n := by omega
    have h2 : ((n.natAbs : ℕ) : ℚ) = ((n.natAbs : ℤ) : ℚ) :=
      (Int.cast_natCast n.natAbs).symm
    rw [h2, h1]
    push_cast
    ring_nf
  · rw [if_neg hn]
    have h1 : (n.natAbs : ℤ) = n := by omega
    have h2 : ((n.natAbs : ℕ) : ℚ) = ((n.natAbs : ℤ) : ℚ) :=
      (Int.cast_natCast n.natAbs).symm
    rw [h2, h1]

set_option maxRecDepth 20000 in
/-- `float(int)` rounds above `2 ^ 53`: the first odd integer past it
loses its low bit, as in CPython (`float(2 ** 53 + 1) == 2 ** 53`). -/
theorem pyFloatInt_rounds :
    pyFloatInt 9007199254740993 = .ok (.finite 9007199254740992) := by
  with_unfolding_all rfl

/-- NaN passes the schema's `minimum` keyword yet `max(0.0, nan)`
rewrites it to `0.0`: a schema-valid event is not preserved, which is
why the amended C2 excludes NaN timestamps. -/
theorem sanitizeEvent_nan_rewrites :
    eventOk (.obj [(kTimestamp, .float .nan), (kEventType, .str "a".toList),
      (kTitle, .str "t".toList)]) = true ∧
    sanitizeEvent (.obj [(kTimestamp, .float .nan), (kEventType, .str "a".toList),
      (kTitle, .str "t".toList)]) =
      .ok (some (.obj [(kTimestamp, .float (.finite 0)),
        (kEventType, .str "a".toList), (kTitle, .str "t".toList)])) :=
  ⟨by decide, by with_unfolding_all rfl⟩

/-- `int(float(v))` on a jsonschema-`integer` value within `[lo, hi]`
(with `0 ≤ lo` and `hi` inside the exact double range) succeeds and
returns the mathematical integer, numerically `==` to `v`. -/
theorem intFloat_of_bounded {v : JVal} {lo hi : ℤ}
    (hint : isIntV v = true) (hge : numGE v lo = true) (hle : numLE v hi = true)
    (hhi : hi < 2 ^ 53) (hlo0 : 0 ≤ lo) :
    ∃ n : ℤ, intFloat v = .ok n ∧ lo ≤ n ∧ n ≤ hi ∧ pyEq (.int n) v = true := by
  cases v with
  | int m =>
    simp only [numGE, decide_eq_true_eq] at hge
    simp only [numLE, decide_eq_true_eq] at hle
    refine ⟨m, ?_, hge, hle, by simp [pyEq]⟩
    have hpf : pyFloatJ (.int m) = .ok (.finite (m : ℚ)) := by
      rw [show pyFloatJ (.int m) = pyFloatInt m from rfl]
      exact pyFloatInt_exact (by omega)
    rw [intFloat]
    simp only [hpf]
    rw [pyIntOfFloat, if_pos (by
      calc (0 : ℚ) ≤ (lo : ℚ) := by exact_mod_cast hlo0
        _ ≤ (m : ℚ) := by exact_mod_cast hge)]
    rw [Int.floor_intCast]
  | float f =>
    cases f with
    | finite q =>
      simp only [isIntV] at hint
      have hq : (q.num : ℚ) = q := (Rat.den_eq_one_iff q).1 (by simpa using hint)
      simp only [numGE, decide_eq_true_eq] at hge
      simp only [numLE, decide_eq_true_eq] at hle
      have hge' : lo ≤ q.num := by exact_mod_cast hq ▸ hge
      have hle' : q.num ≤ hi := by exact_mod_cast hq ▸ hle
      refine ⟨q.num, ?_, hge', hle', by simp [pyEq, hq]⟩
      have hpf : pyFloatJ (.float (.finite q)) = .ok (.finite q) := rfl
      rw [intFloat]
      simp only [hpf]
      rw [pyIntOfFloat, if_pos (by
        calc (0 : ℚ) ≤ (lo : ℚ) := by exact_mod_cast hlo0
          _ ≤ q := hge)]
      have hfl : ⌊q⌋ = q.num := by
        conv_lhs => rw [← hq]
        rw [Int.floor_intCast]
      rw [hfl]
    | inf => simp [isIntV] at hint
    | ninf => simp [isIntV] at hint
    | nan => simp [isIntV] at hint
  | null => simp [isIntV] at hint
  | bool b => simp [isIntV] at hint
  | str s => simp [isIntV] at hint
  | arr xs => simp [isIntV] at hint
  | obj kvs => simp [isIntV] at hint

/-- `max(0.0, f)` is the identity on floats that validate `minimum: 0`. -/
theorem pyMaxZero_of_ge {q : ℚ} (h : 0 ≤ q) :
    pyMaxZero (.finite q) = .finite q := by
  rw [pyMaxZero]
  by_cases h0 : 0 < q
  · rw [if_pos h0]
  · rw [if_neg h0]
    have : q = 0 := le_antisymm (not_lt.1 h0) h
    rw [this]

theorem propOkFinding_conf (v : JVal) :
    propOkFinding kConfidence v = (isIntV v && numGE v 0 && numLE v 100) := rfl

theorem propOkFinding_rel_arr {rv : JVal} (h : propOkFinding kRelated rv = true) :
    ∃ xs, rv = .arr xs := by
  cases rv with
  | arr xs => exact ⟨xs, rfl⟩
  | null =>
    have hf : propOkFinding kRelated (JVal.null) = false := rfl
    rw [hf] at h
    exact absurd h (by simp)
  | bool b =>
    have hf : propOkFinding kRelated (JVal.bool b) = false := rfl
    rw [hf] at h
    exact absurd h (by simp)
  | int n =>
    have hf : propOkFinding kRelated (JVal.int n) = false := rfl
    rw [hf] at h
    exact absurd h (by simp)
  | float f =>
    have hf : propOkFinding kRelated (JVal.float f) = false := rfl
    rw [hf] at h
    exact absurd h (by simp)
  | str s =>
    have hf : propOkFinding kRelated (JVal.str s) = false := rfl
    rw [hf] at h
    exact absurd h (by simp)
  | obj kvs =>
    have hf : propOkFinding kRelated (JVal.obj kvs) = false := rfl
    rw [hf] at h
    exact absurd h (by simp)

/-- Sanitizing a schema-valid finding succeeds, keeps it `==` to the
original, and keeps it schema-valid. -/
theorem sanitizeFinding_valid {kvs : List (List Char × JVal)}
    (h : findingOk (.obj kvs) = true) :
    ∃ kvs1, sanitizeFinding (.obj kvs) = .ok (some (.obj kvs1)) ∧
      pyEq (.obj kvs1) (.obj kvs) = true ∧ findingOk (.obj kvs1) = true := by
  rw [findingOk, Bool.and_eq_true, Bool.and_eq_true, Bool.and_eq_true,
      Bool.and_eq_true] at h
  obtain ⟨⟨⟨⟨hcat, hti⟩, hco⟩, hconf⟩, hall⟩ := h
  rw [hasKey, Option.isSome_iff_exists] at hconf
  obtain ⟨cv, hcv⟩ := hconf
  have hpcv : propOkFinding kConfidence cv = true :=
    List.all_eq_true.1 hall (kConfidence, cv) (objLookup_mem hcv)
  rw [propOkFinding_conf, Bool.and_eq_true, Bool.and_eq_true] at hpcv
  obtain ⟨⟨hint, hge⟩, hle⟩ := hpcv
  obtain ⟨n, hn, hn0, hn100, hpe⟩ :=
    intFloat_of_bounded hint hge hle (by norm_num) le_rfl
  have hmax : max 0 (min 100 n) = n := by omega
  refine ⟨objInsert kvs kConfidence (.int n), ?_, pyEqObj_insert hpe hcv, ?_⟩
  · rw [sanitizeFinding]
    simp only [hcv, hn, hmax, Except.map]
    rcases hrel : objLookup kvs kRelated with _ | rv
    · rw [objLookup_objInsert_ne (by decide), hrel]
    · obtain ⟨xs, rfl⟩ := propOkFinding_rel_arr
        (List.all_eq_true.1 hall (kRelated, rv) (objLookup_mem hrel))
      rw [objLookup_objInsert_ne (by decide), hrel]
  · rw [findingOk, Bool.and_eq_true, Bool.and_eq_true, Bool.and_eq_true,
        Bool.and_eq_true]
    refine ⟨⟨⟨⟨?_, ?_⟩, ?_⟩, ?_⟩, ?_⟩
    · rw [hasKey, objLookup_objInsert_ne (by decide)]; exact hcat
    · rw [hasKey, objLookup_objInsert_ne (by decide)]; exact hti
    · rw [hasKey, objLookup_objInsert_ne (by decide)]; exact hco
    · rw [hasKey, objLookup_objInsert_self]; rfl
    · apply objInsert_all hall
      rw [propOkFinding_conf]
      simp only [isIntV, numGE, numLE, Bool.and_eq_true, decide_eq_true_eq]
      exact ⟨⟨trivial, hn0⟩, hn100⟩

theorem propOkEvent_ts (v : JVal) :
    propOkEvent kTimestamp v = (isNumV v && numGE v 0) := rfl

theorem propOkEvent_imp (v : JVal) :
    propOkEvent kImportance v = (isIntV v && numGE v 1 && numLE v 10) := rfl

/-- The value survives `float`/`max(0.0, _)` unchanged: an int below
`2 ^ 53` in magnitude (where `float(int)` is exact), or any non-NaN
float (NaN is schema-valid there but `max(0.0, nan)` rewrites it to
`0.0`). -/
def tsExact : JVal → Bool
  | .int n => decide (n.natAbs < 2 ^ 53)
  | .float .nan => false
  | _ => true

/-- The `timestamp_seconds` of this event, if present, is a value the
coercion keeps numerically equal (the premise the amended C2 needs). -/
def eventTsSafe (v : JVal) : Bool :=
  match v with
  | .obj kvs =>
    (match objLookup kvs kTimestamp with
     | some tv => tsExact tv
     | none => true)
  | _ => true

/-- All `timestamp_events` of the response have double-sized timestamps. -/
def dataTsSafe (d : JVal) : Bool :=
  match d with
  | .obj kvs =>
    (match objLookup kvs kEvents with
     | some (.arr xs) => xs.all eventTsSafe
     | _ => true)
  | _ => true

/-- The float coercion of a valid, double-sized `timestamp_seconds`
value: it succeeds, `max(0.0, ·)` leaves it alone, and the produced
float is `==` to the original value and still validates. -/
theorem tsCoerce_valid {tv : JVal}
    (hnum : isNumV tv = true) (hge : numGE tv 0 = true)
    (hsafe : tsExact tv = true) :
    ∃ fv, pyFloatJ tv = .ok fv ∧ pyMaxZero fv = fv ∧
      pyEq (.float fv) tv = true ∧
      (isNumV (.float fv) && numGE (.float fv) 0) = true := by
  cases tv with
  | int n =>
    simp only [tsExact, decide_eq_true_eq] at hsafe
    simp only [numGE, decide_eq_true_eq] at hge
    refine ⟨.finite (n : ℚ), ?_, ?_, ?_, ?_⟩
    · rw [show pyFloatJ (.int n) = pyFloatInt n from rfl]
      exact pyFloatInt_exact hsafe
    · exact pyMaxZero_of_ge (by exact_mod_cast hge)
    · simp [pyEq]
    · simp only [isNumV, numGE, Bool.and_eq_true, decide_eq_true_eq]
      exact ⟨trivial, by exact_mod_cast hge⟩
  | float f =>
    cases f with
    | finite q =>
      simp only [numGE, decide_eq_true_eq] at hge
      have hge' : 0 ≤ q := by exact_mod_cast hge
      exact ⟨.finite q, rfl, pyMaxZero_of_ge hge', by simp [pyEq],
        by simp [isNumV, numGE, hge']⟩
    | inf => exact ⟨.inf, rfl, rfl, by simp [pyEq], by simp [isNumV, numGE]⟩
    | ninf => simp [numGE] at hge
    | nan => simp [tsExact] at hsafe
  | null => simp [isNumV] at hnum
  | bool b => simp [isNumV] at hnum
  | str s => simp [isNumV] at hnum
  | arr xs => simp [isNumV] at hnum
  | obj o => simp [isNumV] at hnum

/-- Sanitizing a schema-valid event whose timestamp the coercion keeps
numerically equal succeeds, keeps the event `==` to the original, and
keeps it schema-valid. -/
theorem sanitizeEvent_valid {kvs : List (List Char × JVal)}
    (h : eventOk (.obj kvs) = true) (hsafe : eventTsSafe (.obj kvs) = true) :
    ∃ kvs2, sanitizeEvent (.obj kvs) = .ok (some (.obj kvs2)) ∧
      pyEq (.obj kvs2) (.obj kvs) = true ∧ eventOk (.obj kvs2) = true := by
  rw [eventOk, Bool.and_eq_true, Bool.and_eq_true, Bool.and_eq_true] at h
  obtain ⟨⟨⟨hts, het⟩, hti⟩, hall⟩ := h
  rw [hasKey, Option.isSome_iff_exists] at hts
  obtain ⟨tv, htv⟩ := hts
  have hptv : propOkEvent kTimestamp tv = true :=
    List.all_eq_true.1 hall (kTimestamp, tv) (objLookup_mem htv)
  rw [propOkEvent_ts, Bool.and_eq_true] at hptv
  have hsafe' : tsExact tv = true := by
    rw [eventTsSafe] at hsafe
    simp only [htv] at hsafe
    exact hsafe
  obtain ⟨fv, hpf, hmz, hpe, hok⟩ := tsCoerce_valid hptv.1 hptv.2 hsafe'
  set kvs1 := objInsert kvs kTimestamp (.float fv) with hkvs1
  have hstep1 : sanitizeEvent (.obj kvs) =
      (((match objLookup kvs1 kImportance with
          | some iv =>
            (match intFloat iv with
             | .ok n => .ok (objInsert kvs1 kImportance (.int (max 1 (min 10 n))))
             | .error .valueError => .ok (objInsert kvs1 kImportance (.int 5))
             | .error .typeError => .ok (objInsert kvs1 kImportance (.int 5))
             | .error e => .error e)
          | none => .ok kvs1 : Except PyExc (List (List Char × JVal)))).map
          (fun kvs2 => some (.obj kvs2))) := by
    rw [sanitizeEvent]
    simp only [htv, hpf, hmz, Except.bind]
  rcases himp : objLookup kvs kImportance with _ | iv
  · refine ⟨kvs1, ?_, pyEqObj_insert hpe htv, ?_⟩
    · rw [hstep1, objLookup_objInsert_ne (by decide), himp]
      rfl
    · rw [eventOk, Bool.and_eq_true, Bool.and_eq_true, Bool.and_eq_true]
      refine ⟨⟨⟨?_, ?_⟩, ?_⟩, ?_⟩
      · rw [hasKey, hkvs1, objLookup_objInsert_self]; rfl
      · rw [hasKey, hkvs1, objLookup_objInsert_ne (by decide)]; exact het
      · rw [hasKey, hkvs1, objLookup_objInsert_ne (by decide)]; exact hti
      · exact objInsert_all hall (by rw [propOkEvent_ts]; exact hok)
  · have hpiv : propOkEvent kImportance iv = true :=
      List.all_eq_true.1 hall (kImportance, iv) (objLookup_mem himp)
    rw [propOkEvent_imp, Bool.and_eq_true, Bool.and_eq_true] at hpiv
    obtain ⟨⟨hint, hge1⟩, hle10⟩ := hpiv
    obtain ⟨n, hn, hn1, hn10, hpen⟩ := intFloat_of_bounded hint hge1 hle10
      (by norm_num) (by norm_num)
    have hmax : max 1 (min 10 n) = n := by omega
    refine ⟨objInsert kvs1 kImportance (.int n), ?_,
      pyEqObj_insert2 (by decide) hpe hpen htv himp, ?_⟩
    · rw [hstep1, objLookup_objInsert_ne (by decide), himp]
      simp only [hn, hmax, Except.map]
    · rw [eventOk, Bool.and_eq_true, Bool.and_eq_true, Bool.and_eq_true]
      refine ⟨⟨⟨?_, ?_⟩, ?_⟩, ?_⟩
      · rw [hasKey, objLookup_objInsert_ne (by decide), hkvs1,
          objLookup_objInsert_self]
        rfl
      · rw [hasKey, objLookup_objInsert_ne (by decide), hkvs1,
          objLookup_objInsert_ne (by decide)]
        exact het
      · rw [hasKey, objLookup_objInsert_ne (by decide), hkvs1,
          objLookup_objInsert_ne (by decide)]
        exact hti
      · refine objInsert_all (objInsert_all hall ?_) ?_
        · rw [propOkEvent_ts]; exact hok
        · rw [propOkEvent_imp]
          simp only [isIntV, numGE, numLE, Bool.and_eq_true, decide_eq_true_eq]
          exact ⟨⟨trivial, hn1⟩, hn10⟩

theorem sanitizeList_valid {g : JVal → Except PyExc (Option JVal)}
    {Q : JVal → Bool} :
    ∀ (xs : List JVal),
    (∀ x ∈ xs, ∃ y, g x = .ok (some y) ∧ pyEq y x = true ∧ Q y = true) →
    ∃ ys, sanitizeList g xs = .ok ys ∧ pyEq (.arr ys) (.arr xs) = true ∧
      ys.all Q = true
  | [], _ => ⟨[], rfl, by simp [pyEq], rfl⟩
  | x :: t, h => by
    obtain ⟨y, hy, hpe, hQ⟩ := h x (by simp)
    obtain ⟨ys, hys, hpes, hQs⟩ :=
      sanitizeList_valid t (fun z hz => h z (List.mem_cons_of_mem _ hz))
    refine ⟨y :: ys, ?_, ?_, ?_⟩
    · rw [sanitizeList]
      simp only [hy, hys]
    · have harr : pyEq (.arr (y :: ys)) (.arr (x :: t)) =
          (pyEq y x && pyEq (.arr ys) (.arr t)) := by simp only [pyEq]
      rw [harr, hpe, hpes]
      rfl
    · simp [List.all_cons, hQ, hQs]

theorem propOkTop_findings_arr (ys : List JVal) :
    propOkTop kFindings (.arr ys) = ys.all findingOk := rfl

theorem propOkTop_events_arr (ys : List JVal) :
    propOkTop kEvents (.arr ys) = ys.all eventOk := rfl

theorem propOkTop_findings {fv : JVal} (h : propOkTop kFindings fv = true) :
    ∃ xs, fv = .arr xs ∧ xs.all findingOk = true := by
  cases fv with
  | arr xs => exact ⟨xs, rfl, h⟩
  | null =>
    have hf : propOkTop kFindings JVal.null = false := rfl
    rw [hf] at h
    exact absurd h (by simp)
  | bool b =>
    have hf : propOkTop kFindings (JVal.bool b) = false := rfl
    rw [hf] at h
    exact absurd h (by simp)
  | int n =>
    have hf : propOkTop kFindings (JVal.int n) = false := rfl
    rw [hf] at h
    exact absurd h (by simp)
  | float f =>
    have hf : propOkTop kFindings (JVal.float f) = false := rfl
    rw [hf] at h
    exact absurd h (by simp)
  | str s =>
    have hf : propOkTop kFindings (JVal.str s) = false := rfl
    rw [hf] at h
    exact absurd h (by simp)
  | obj o =>
    have hf : propOkTop kFindings (JVal.obj o) = false := rfl
    rw [hf] at h
    exact absurd h (by simp)

theorem propOkTop_events {ev : JVal} (h : propOkTop kEvents ev = true) :
    ∃ xs, ev = .arr xs ∧ xs.all eventOk = true := by
  cases ev with
  | arr xs => exact ⟨xs, rfl, h⟩
  | null =>
    have hf : propOkTop kEvents JVal.null = false := rfl
    rw [hf] at h
    exact absurd h (by simp)
  | bool b =>
    have hf : propOkTop kEvents (JVal.bool b) = false := rfl
    rw [hf] at h
    exact absurd h (by simp)
  | int n =>
    have hf : propOkTop kEvents (JVal.int n) = false := rfl
    rw [hf] at h
    exact absurd h (by simp)
  | float f =>
    have hf : propOkTop kEvents (JVal.float f) = false := rfl
    rw [hf] at h
    exact absurd h (by simp)
  | str s =>
    have hf : propOkTop kEvents (JVal.str s) = false := rfl
    rw [hf] at h
    exact absurd h (by simp)
  | obj o =>
    have hf : propOkTop kEvents (JVal.obj o) = false := rfl
    rw [hf] at h
    exact absurd h (by simp)

theorem findingOk_obj {x : JVal} (h : findingOk x = true) :
    ∃ kvs, x = .obj kvs := by
  cases x with
  | obj kvs => exact ⟨kvs, rfl⟩
  | null => exact absurd h (by rw [show findingOk JVal.null = false from rfl]; simp)
  | bool b => exact absurd h (by rw [show findingOk (JVal.bool b) = false from rfl]; simp)
  | int n => exact absurd h (by rw [show findingOk (JVal.int n) = false from rfl]; simp)
  | float f => exact absurd h (by rw [show findingOk (JVal.float f) = false from rfl]; simp)
  | str s => exact absurd h (by rw [show findingOk (JVal.str s) = false from rfl]; simp)
  | arr xs => exact absurd h (by rw [show findingOk (JVal.arr xs) = false from rfl]; simp)

theorem eventOk_obj {x : JVal} (h : eventOk x = true) :
    ∃ kvs, x = .obj kvs := by
  cases x with
  | obj kvs => exact ⟨kvs, rfl⟩
  | null => exact absurd h (by rw [show eventOk JVal.null = false from rfl]; simp)
  | bool b => exact absurd h (by rw [show eventOk (JVal.bool b) = false from rfl]; simp)
  | int n => exact absurd h (by rw [show eventOk (JVal.int n) = false from rfl]; simp)
  | float f => exact absurd h (by rw [show eventOk (JVal.float f) = false from rfl]; simp)
  | str s => exact absurd h (by rw [show eventOk (JVal.str s) = false from rfl]; simp)
  | arr xs => exact absurd h (by rw [show eventOk (JVal.arr xs) = false from rfl]; simp)

/-- Sanitizing a schema-valid response object with double-sized
timestamps succeeds, keeps it `==` to the original, and keeps it
schema-valid. -/
theorem sanitizeData_valid {d : JVal} (hval : validateTop d = true)
    (hsafe : dataTsSafe d = true) :
    ∃ d', sanitizeData d = .ok d' ∧ pyEq d' d = true ∧
      validateTop d' = true := by
  obtain ⟨kvs, rfl⟩ : ∃ kvs, d = .obj kvs := by
    cases d with
    | obj kvs => exact ⟨kvs, rfl⟩
    | null => exact absurd hval (by rw [show validateTop JVal.null = false from rfl]; simp)
    | bool b => exact absurd hval (by rw [show validateTop (JVal.bool b) = false from rfl]; simp)
    | int n => exact absurd hval (by rw [show validateTop (JVal.int n) = false from rfl]; simp)
    | float f => exact absurd hval (by rw [show validateTop (JVal.float f) = false from rfl]; simp)
    | str s => exact absurd hval (by rw [show validateTop (JVal.str s) = false from rfl]; simp)
    | arr xs => exact absurd hval (by rw [show validateTop (JVal.arr xs) = false from rfl]; simp)
  rw [validateTop, Bool.and_eq_true, Bool.and_eq_true, Bool.and_eq_true,
      Bool.and_eq_true] at hval
  obtain ⟨⟨⟨⟨hvid, hsum⟩, hfk⟩, hek⟩, hall⟩ := hval
  rw [hasKey, Option.isSome_iff_exists] at hfk hek
  obtain ⟨fv, hfv⟩ := hfk
  obtain ⟨ev, hev⟩ := hek
  obtain ⟨xs, rfl, hxs⟩ := propOkTop_findings
    (List.all_eq_true.1 hall (kFindings, fv) (objLookup_mem hfv))
  obtain ⟨es, rfl, hes⟩ := propOkTop_events
    (List.all_eq_true.1 hall (kEvents, ev) (objLookup_mem hev))
  have hessafe : es.all eventTsSafe = true := by
    rw [dataTsSafe] at hsafe
    simp only [hev] at hsafe
    exact hsafe
  obtain ⟨ys, hys, hpeys, hysok⟩ := sanitizeList_valid
    (g := sanitizeFinding) (Q := findingOk) xs (by
      intro x hx
      obtain ⟨fkvs, rfl⟩ := findingOk_obj (List.all_eq_true.1 hxs x hx)
      obtain ⟨kvs1, h1, h2, h3⟩ :=
        sanitizeFinding_valid (List.all_eq_true.1 hxs _ hx)
      exact ⟨.obj kvs1, h1, h2, h3⟩)
  obtain ⟨es', hes', hpees, hesok⟩ := sanitizeList_valid
    (g := sanitizeEvent) (Q := eventOk) es (by
      intro e he
      obtain ⟨ekvs, rfl⟩ := eventOk_obj (List.all_eq_true.1 hes e he)
      obtain ⟨kvs2, h1, h2, h3⟩ := sanitizeEvent_valid
        (List.all_eq_true.1 hes _ he) (List.all_eq_true.1 hessafe _ he)
      exact ⟨.obj kvs2, h1, h2, h3⟩)
  set kvs1 := objInsert kvs kFindings (.arr ys) with hkvs1
  refine ⟨.obj (objInsert kvs1 kEvents (.arr es')), ?_, ?_, ?_⟩
  · rw [sanitizeData]
    simp only [hfv, hys, Except.map, Except.bind,
      objLookup_objInsert_ne (show kEvents ≠ kFindings by decide) kvs, hev, hes']
  · exact pyEqObj_insert2 (by decide) hpeys hpees hfv hev
  · rw [validateTop, Bool.and_eq_true, Bool.and_eq_true, Bool.and_eq_true,
        Bool.and_eq_true]
    refine ⟨⟨⟨⟨?_, ?_⟩, ?_⟩, ?_⟩, ?_⟩
    · rw [hasKey, objLookup_objInsert_ne (by decide), hkvs1,
        objLookup_objInsert_ne (by decide)]
      exact hvid
    · rw [hasKey, objLookup_objInsert_ne (by decide), hkvs1,
        objLookup_objInsert_ne (by decide)]
      exact hsum
    · rw [hasKey, objLookup_objInsert_ne (by decide), hkvs1,
        objLookup_objInsert_self]
      rfl
    · rw [hasKey, objLookup_objInsert_self]
      rfl
    · refine objInsert_all (objInsert_all hall ?_) ?_
      · rw [propOkTop_findings_arr]
        exact hysok
      · rw [propOkTop_events_arr]
        exact hesok

/-- When the stripped text strictly decodes and the text carries no
physical newline or carriage return, preprocessing is just the strip:
there is no fence to extract and Stage B leaves the text unchanged. -/
theorem preprocess_of_strict {t : List Char} {d : JVal}
    (hnl : noNLCR t = true) (hdec : jsonLoads (pystrip t) = .ok d) :
    preprocessResponse t = pystrip t := by
  have htne : t ≠ [] := by
    intro h0
    rw [h0, show pystrip ([] : List Char) = [] from rfl,
        show jsonLoads ([] : List Char) = .error .jsonDecodeError from rfl] at hdec
    exact absurd hdec (by simp)
  have hfence : fenceAt (pystrip t) = false := by
    rcases hps : pystrip t with _ | ⟨c, r⟩
    · rw [hps, show jsonLoads ([] : List Char) = .error .jsonDecodeError from rfl]
        at hdec
      exact absurd hdec (by simp)
    · apply fenceAt_head_ne
      intro hcb
      subst hcb
      rw [hps, show jsonLoads (btick :: r) = .error .jsonDecodeError from rfl]
        at hdec
      exact absurd hdec (by simp)
  rw [preprocessResponse, if_neg htne]
  show subFix (if fenceAt (pystrip t) then
      match mdSearch (pystrip t) with
      | some g => pystrip g
      | none => pystrip t
    else pystrip t) = pystrip t
  rw [hfence]
  simp only [Bool.false_eq_true, if_false]
  exact subFix_id (noNLCR_pystrip hnl)

/-- C2 (amended): on newline-free input whose stripped text strictly
decodes to a schema-valid object whose `timestamp_seconds` values
survive the coercion numerically — integer timestamps below `2 ^ 53`
in magnitude (where `float(int)` is exact; larger ints round) and no
NaN timestamps (NaN is schema-valid but `max(0.0, nan)` rewrites it to
`0.0`) — `parse` succeeds and returns a dict that is Python-`==` to
the decoded input: sanitization only rebuilds numeric fields with
numerically equal values (`int` timestamps become equal floats,
integral-float scores become equal ints). -/
theorem C2_parse_valid_returns_pyEq (t : List Char) (d : JVal)
    (hnl : noNLCR t = true)
    (hdec : jsonLoads (pystrip t) = .ok d)
    (hval : validateTop d = true)
    (hts : dataTsSafe d = true) :
    ∃ d', parse t = .ok (some d') ∧ pyEq d' d = true := by
  obtain ⟨d', hs, hpe, hval'⟩ := sanitizeData_valid hval hts
  refine ⟨d', ?_, hpe⟩
  rw [parse, preprocess_of_strict hnl hdec, parseFrom, decodeStage]
  simp only [hdec, hs]
  rw [hval']
  simp

/-- The decoded object of the C2 counterexample text. -/
def c2Kvs : List (List Char × JVal) :=
  [(kVideoMd, .str "x".toList), (kSummary, .str "0123456789".toList),
   (kFindings, .arr []), (kEvents, .arr []),
   ("k: ".toList, .str "v".toList)]

/-- A schema-valid text that strictly decodes, yet `parse` rejects it:
the inter-token newline after the extra `"k: "` member's colon lands in
a Stage B content group (the colon-space inside the key string acts as
the pattern's `\s*:\s*`), so the repair inserts a literal `\n` outside
any string and the repaired text no longer decodes. -/
def c2Bad : List Char :=
  ("\x7b\"video_analysis_md\": \"x\", \"summary_md\": \"0123456789\", " ++
   "\"key_findings\": [], \"timestamp_events\": [], \"k: \":\n\"v\"\x7d").toList

set_option maxRecDepth 60000 in
/-- C2 counterexample: a text whose stripped form strictly decodes to a
schema-conforming object, while `parse` returns `None` — the claim's
promise that `parse` then returns the (sanitize-equal) decoded input
fails, because Stage B repair corrupts the text before decoding. -/
theorem C2_valid_input_not_returned :
    jsonLoads (pystrip c2Bad) = .ok (.obj c2Kvs) ∧
    validateTop (.obj c2Kvs) = true ∧
    parse c2Bad = .ok none :=
  ⟨by with_unfolding_all rfl, by with_unfolding_all rfl,
   by with_unfolding_all rfl⟩

set_option maxRecDepth 60000 in
theorem C2_parse_valid_returns_pyEq_witness :
    ∃ d', parse c7Text = .ok (some d') ∧ pyEq d' (.obj c7KvsD) = true :=
  C2_parse_valid_returns_pyEq c7Text (.obj c7KvsD)
    (by with_unfolding_all rfl) (by with_unfolding_all rfl)
    (by with_unfolding_all rfl) (by with_unfolding_all rfl)

end VideoAI
